import Mathlib

/-!
Verification of the column-normalization / type-coercion / timestamping
pipeline of `app.py` (a Streamlit → pandas → BigQuery upload script).

The pipeline is shallowly embedded:
  * a Record Batch (`Batch`) is a list of named columns, each a list of cells;
  * `clean_column` mirrors the header normalizer of `app.py` (Python `str`
    operations are modelled on `List Char`; `str.lower` is modelled on the
    ASCII range, which covers every header this application handles);
  * the per-cell behaviour of the pandas calls used by `app.py`
    (`pd.to_numeric(errors="coerce")`, `pd.to_datetime(errors="coerce")`
    restricted to the ISO-like formats this data uses, `astype("Int64")`,
    `astype(str)`) is modelled by executable cell functions;
  * the regex substitution `re.sub(r"\b[A-Z]{2,4}\b", "", x)` is modelled by
    a left-to-right scan with Python word-boundary semantics on ASCII;
  * the five coercion loops and the `load_time` assignment are folds over the
    fixed field lists, with the `if col in df.columns` guards kept.

The model is faithful for frames whose column labels are distinct (duplicate
labels — which can only arise from the collision analysed for claim C3 —
make the pandas loops raise on the shared label instead).
-/

namespace SpecApp

/-! ## Character-level helpers -/

/-- Whitespace as recognised by Python's `str.strip` (ASCII subset). -/
def isWS (c : Char) : Bool := c = ' ' || c = '\t' || c = '\n' || c = '\r'

/-- ASCII uppercase letter, the character class `[A-Z]` of the regex. -/
def isUpperAZ (c : Char) : Bool := 'A' ≤ c && c ≤ 'Z'

/-- Word character for the regex word boundary `\b` (ASCII subset of `\w`). -/
def isWordChar (c : Char) : Bool := isUpperAZ c || ('a' ≤ c && c ≤ 'z') || c.isDigit || c = '_'

/-- Python `str.lower` on one character (ASCII range). -/
def lowerChar (c : Char) : Char :=
  if isUpperAZ c then Char.ofNat (c.toNat + 32) else c

/-! ## Python string operations on `List Char` -/

/-- Python `str.strip()`. -/
def stripL (l : List Char) : List Char :=
  ((l.dropWhile isWS).reverse.dropWhile isWS).reverse

/-- Python `str.lower()`. -/
def lowerL (l : List Char) : List Char := l.map lowerChar

/-- Python `str.replace(a, b)` for single characters `a`, `b`. -/
def subChar (a b : Char) (l : List Char) : List Char :=
  l.map fun c => if c = a then b else c

/-- Python `str.replace("#", "number")`. -/
def expandHash : List Char → List Char
  | [] => []
  | c :: cs => (if c = '#' then ['n', 'u', 'm', 'b', 'e', 'r'] else [c]) ++ expandHash cs

/-- Python `str.replace("__", "_")`: one left-to-right pass over
non-overlapping occurrences (`"___"` becomes `"__"`, not `"_"`). -/
def collapseUU : List Char → List Char
  | [] => []
  | [c] => [c]
  | c :: d :: cs =>
    if c = '_' ∧ d = '_' then '_' :: collapseUU cs else c :: collapseUU (d :: cs)

/-- `clean_column` from `app.py`:
`col.strip().lower()`, then `" "→"_"`, `"-"→"_"`, `"/"→"_"`,
then `"#"→"number"`, then `"__"→"_"`. -/
def cleanL (l : List Char) : List Char :=
  collapseUU (expandHash (subChar '/' '_' (subChar '-' '_' (subChar ' ' '_' (lowerL (stripL l))))))

/-- `clean_column` on `String`s. -/
def clean_column (s : String) : String := ⟨cleanL s.data⟩

/-! ## The regex substitution `re.sub(r"\b[A-Z]{2,4}\b", "", x)` -/

/-- Length of the uppercase run at the head of the list. -/
def upRun : List Char → Nat
  | [] => 0
  | c :: cs => if isUpperAZ c then upRun cs + 1 else 0

/-- The next position is a word boundary seen from inside a word:
end of string or a non-word character. -/
def nonWordStart : List Char → Bool
  | [] => true
  | c :: _ => !isWordChar c

/-- Does `\b[A-Z]{2,4}\b` match at the head of `l`, where `pw` records whether
the previous character was a word character?  Since the pattern starts and
ends with an uppercase (word) character, the boundaries hold exactly when the
neighbours are non-word or absent; `{2,4}` can only close at the end of the
uppercase run, so a match exists iff the run length is between 2 and 4 and is
followed by a non-word character or the end. -/
def matchTZ (pw : Bool) (l : List Char) : Bool :=
  !pw && decide (2 ≤ upRun l) && decide (upRun l ≤ 4) && nonWordStart (l.drop (upRun l))

/-- The `re.sub` scan, with an explicit scan bound (`fuel`): at each
position, if the pattern matches, delete the match and resume after it,
otherwise emit the character and move on.  Every step consumes at least one
character, so `fuel = l.length` runs the scan to completion; the bound keeps
the recursion structural. -/
def resubScan : Nat → Bool → List Char → List Char
  | _, _, [] => []
  | 0, _, l => l
  | fuel + 1, pw, c :: cs =>
    if matchTZ pw (c :: cs) then resubScan fuel true ((c :: cs).drop (upRun (c :: cs)))
    else c :: resubScan fuel (isWordChar c) cs

/-- `re.sub(r"\b[A-Z]{2,4}\b", "", x)`: scan left to right, deleting each
match and resuming after it. -/
def resubTZ (pw : Bool) (l : List Char) : List Char := resubScan l.length pw l

/-- Does the string contain a match of `\b[A-Z]{2,4}\b` anywhere? -/
def hasTZ (pw : Bool) : List Char → Bool
  | [] => false
  | c :: cs => matchTZ pw (c :: cs) || hasTZ (isWordChar c) cs

/-! ## Dates: model of `pd.to_datetime(..., errors="coerce")`

`app.py` feeds `to_datetime` the cleaned cell text and keeps only `.dt.date`.
The model accepts the ISO-like shapes this data uses — `YYYY-MM-DD`,
optionally followed by whitespace and a valid `HH:MM[:SS]` time (the time is
validated, then discarded, exactly as `.dt.date` discards it) — and returns
`none` (pandas `NaT`) for everything else. -/

/-- A calendar date, the value class produced by `.dt.date`. -/
structure Date where
  year : Nat
  month : Nat
  day : Nat
deriving DecidableEq, Repr

/-- Numeric value of a digit string. -/
def natOfDigits (l : List Char) : Nat :=
  l.foldl (fun a c => 10 * a + (c.toNat - 48)) 0

/-- Split a leading run of digits. -/
def takeDigits (l : List Char) : List Char × List Char :=
  (l.takeWhile Char.isDigit, l.dropWhile Char.isDigit)

/-- The optional `:SS` tail of a time. -/
def secOK : List Char → Bool
  | [] => true
  | ':' :: r4 =>
    let p3 := takeDigits r4
    decide (p3.1.length = 2 ∧ natOfDigits p3.1 ≤ 59 ∧ p3.2 = [])
  | _ => false

/-- Is `l` a valid `HH:MM` or `HH:MM:SS` time? -/
def timeOK (l : List Char) : Bool :=
  let p1 := takeDigits l
  match p1.2 with
  | ':' :: r2 =>
    let p2 := takeDigits r2
    if 1 ≤ p1.1.length ∧ p1.1.length ≤ 2 ∧ p2.1.length = 2 ∧
       natOfDigits p1.1 ≤ 23 ∧ natOfDigits p2.1 ≤ 59 then
      secOK p2.2
    else false
  | _ => false

/-- Parse a leading `YYYY-MM-DD` with the bounds `to_datetime` enforces,
returning the calendar date and the unconsumed remainder. -/
def parseYMD (l : List Char) : Option (Date × List Char) :=
  let p1 := takeDigits l
  match p1.2 with
  | '-' :: r2 =>
    let p2 := takeDigits r2
    match p2.2 with
    | '-' :: r4 =>
      let p3 := takeDigits r4
      if p1.1.length = 4 ∧ 1 ≤ p2.1.length ∧ p2.1.length ≤ 2 ∧
         1 ≤ p3.1.length ∧ p3.1.length ≤ 2 ∧
         1 ≤ natOfDigits p2.1 ∧ natOfDigits p2.1 ≤ 12 ∧
         1 ≤ natOfDigits p3.1 ∧ natOfDigits p3.1 ≤ 31 then
        some (⟨natOfDigits p1.1, natOfDigits p2.1, natOfDigits p3.1⟩, p3.2)
      else none
    | _ => none
  | _ => none

/-- `pd.to_datetime(s, errors="coerce")` followed by `.dt.date`, on the
formats exercised here (see the section comment): a date, optionally followed
by whitespace and a valid time which is then discarded. -/
def parseDT (l : List Char) : Option Date :=
  match parseYMD l with
  | some (d, []) => some d
  | some (d, c :: r6) => if isWS c ∧ timeOK (r6.dropWhile isWS) then some d else none
  | none => none

/-! ## Numbers: model of `pd.to_numeric(..., errors="coerce")` on text

Decimal literals with optional sign and optional fractional part (the shapes
this data uses); anything else — `"N/A"`, `"abc"`, … — fails to parse. -/

/-- Unsigned decimal: digits, optionally `.` and further digits.  The value
`⌊ip.fp⌋ = (ip·10^k + fp) / 10^k` is built with `mkRat` so that it reduces
inside the kernel. -/
def parseUnsignedRat (l : List Char) : Option ℚ :=
  let p1 := takeDigits l
  match p1.2 with
  | [] => if p1.1 = [] then none else some (mkRat (natOfDigits p1.1) 1)
  | '.' :: r2 =>
    let p2 := takeDigits r2
    if p2.2 = [] ∧ (p1.1 ≠ [] ∨ p2.1 ≠ []) then
      some (mkRat (natOfDigits p1.1 * 10 ^ p2.1.length + natOfDigits p2.1) (10 ^ p2.1.length))
    else none
  | _ => none

/-- `pd.to_numeric(s, errors="coerce")` on a text cell. -/
def parseNumeric (s : String) : Option ℚ :=
  match stripL s.data with
  | '+' :: r => parseUnsignedRat r
  | '-' :: r => (parseUnsignedRat r).map Rat.neg
  | r => parseUnsignedRat r

/-! ## Cells and the Record Batch -/

/-- One cell of the batch.  `na` is the missing value (`NaN`/`NaT`/`pd.NA`);
`dt` is a datetime value (the `load_time` stamp, indexed by the clock
reading). -/
inductive Cell where
  | na : Cell
  | txt : String → Cell
  | num : ℚ → Cell
  | date : Date → Cell
  | int : Int → Cell
  | dt : Nat → Cell
deriving DecidableEq, Repr

/-- Python `str(x)` as used by `astype(str)`: the one behaviour the claims
exercise is `str(nan) = "nan"`; rendering of the other cell classes is a
plain placeholder (those cells never reach an `astype(str)` column). -/
def renderCell : Cell → String
  | .na => "nan"
  | .txt s => s
  | .num q => toString q
  | .date d => toString d.year ++ "-" ++ toString d.month ++ "-" ++ toString d.day
  | .int n => toString n
  | .dt t => toString t

/-- `pd.to_numeric(·, errors="coerce")` cell by cell: text parses or degrades
to missing, missing stays missing, numbers pass through. -/
def toNumericCell : Cell → Cell
  | .na => .na
  | .txt s => match parseNumeric s with | some q => .num q | none => .na
  | .num q => .num q
  | .int n => .num (mkRat n 1)
  | .date _ => .na
  | .dt _ => .na

/-- `astype("Int64")` cell by cell, after `to_numeric`: missing is preserved,
whole values inside the signed 64-bit range become integers, and — as pandas
does — a non-integral value, or a whole value outside the int64 range
(`int64` holds `-2^63 … 2^63 - 1`), raises
(`TypeError: cannot safely cast non-equivalent float64 to int64`).  The
numeric value is modelled as the exact rational the text denotes (pandas
holds a rounded float64/uint64; the claims only exercise values both
representations agree on). -/
def astypeInt64Cell : Cell → Except String Cell
  | .na => .ok .na
  | .num q =>
    if q.den = 1 ∧ -9223372036854775808 ≤ q.num ∧ q.num ≤ 9223372036854775807 then
      .ok (.int q.num)
    else .error "cannot safely cast non-equivalent float64 to int64"
  | .int n => .ok (.int n)
  | .txt _ => .error "object cannot be safely cast to int64"
  | .date _ => .error "object cannot be safely cast to int64"
  | .dt _ => .error "object cannot be safely cast to int64"

/-- `parse_datetime_with_tz` from `app.py`, cell by cell:
`astype(str)`, then `re.sub(r"\b[A-Z]{2,4}\b", "", x).strip()`, then
`pd.to_datetime(errors="coerce").dt.date`. -/
def parse_datetime_with_tz_cell (v : Cell) : Cell :=
  match parseDT (stripL (resubTZ false (renderCell v).data)) with
  | some d => .date d
  | none => .na

/-- `parse_date` from `app.py` — its body is identical to
`parse_datetime_with_tz`. -/
def parse_date_cell (v : Cell) : Cell :=
  match parseDT (stripL (resubTZ false (renderCell v).data)) with
  | some d => .date d
  | none => .na

/-- `astype(str)` cell by cell. -/
def astypeStrCell (v : Cell) : Cell := .txt (renderCell v)

/-- A Record Batch: named columns in order, each holding the column's cells.
Values are all text (or missing) when the batch is read from a file. -/
abbrev Batch := List (String × List Cell)

/-- The column labels, in order. -/
def colNames (df : Batch) : List String := df.map Prod.fst

/-- `col in df.columns`. -/
def hasCol (df : Batch) (c : String) : Bool := df.any fun p => p.1 = c

/-- The values of the (first) column labelled `c`. -/
def getCol (df : Batch) (c : String) : Option (List Cell) :=
  (df.find? fun p => p.1 = c).map Prod.snd

/-- `df[c] = f(df[c])`: rewrite the values of every column labelled `c`. -/
def mapCol (c : String) (f : List Cell → List Cell) (df : Batch) : Batch :=
  df.map fun p => if p.1 = c then (p.1, f p.2) else p

/-- The cell in column `c`, row `i`. -/
def cellAt (df : Batch) (c : String) (i : Nat) : Option Cell :=
  (getCol df c).bind fun vs => vs.get? i

/-! ## The pipeline stages of `app.py` -/

/-- The numeric-amount group (`numeric_fields` in `app.py`). -/
def numeric_fields : List String :=
  ["settlement_amount", "authorization_amount", "total_amount",
   "reserved15", "reserved16", "reserved17", "reserved18", "reserved19", "reserved20"]

/-- The date/time-with-timezone group. -/
def date_tz_fields : List String := ["settlement_date_time", "submit_date_time"]

/-- The integer group (the six "reserved" slots). -/
def reserved_fields : List String :=
  ["reserved15", "reserved16", "reserved17", "reserved18", "reserved19", "reserved20"]

/-- The forced-text group (`string_columns` in `app.py`). -/
def string_columns : List String :=
  ["bank_account_number", "routing_number", "card_number", "customer_id", "invoice_number"]

/-- `for col in names: if col in df.columns: df[col] = df[col].map f`. -/
def applyGroup (f : Cell → Cell) (names : List String) (df : Batch) : Batch :=
  names.foldl (fun acc col => if hasCol acc col then mapCol col (List.map f) acc else acc) df

/-- `df.columns = [clean_column(c) for c in df.columns]`: a pure relabelling —
pandas keeps both columns when two labels coincide. -/
def normalizeStep (df : Batch) : Batch := df.map fun p => (clean_column p.1, p.2)

/-- The numeric coercion loop. -/
def numericStep (df : Batch) : Batch := applyGroup toNumericCell numeric_fields df

/-- The DATE coercion loop for the two `*_date_time` columns. -/
def dateTZStep (df : Batch) : Batch :=
  applyGroup parse_datetime_with_tz_cell date_tz_fields df

/-- `if "business_day" in df.columns: df["business_day"] = parse_date(...)`. -/
def businessDayStep (df : Batch) : Batch :=
  if hasCol df "business_day" then mapCol "business_day" (List.map parse_date_cell) df else df

/-- Convert a whole column cell by cell, stopping at the first raising cell
(the exception aborts the whole `astype` call, as in pandas). -/
def mapCellsM (f : Cell → Except String Cell) : List Cell → Except String (List Cell)
  | [] => .ok []
  | v :: vs => do
    let w ← f v
    let ws ← mapCellsM f vs
    pure (w :: ws)

/-- One iteration of a fallible column-conversion loop:
`if col in df.columns: df[col] = <convert df[col]>` where the conversion can
raise. -/
def stepM (g : Cell → Except String Cell) (acc : Batch) (col : String) : Except String Batch :=
  if hasCol acc col then
    match getCol acc col with
    | some vs => do
      let ws ← mapCellsM g vs
      pure (mapCol col (fun _ => ws) acc)
    | none => pure acc
  else pure acc

/-- The cell conversion of the `Int64` recast:
`pd.to_numeric(·, errors="coerce").astype("Int64")`. -/
def int64Cell (v : Cell) : Except String Cell := astypeInt64Cell (toNumericCell v)

/-- The `Int64` recast loop over the reserved columns:
`df[col] = pd.to_numeric(df[col], errors="coerce").astype("Int64")`.
The `astype` raises on a non-integral value, so the step is `Except`-valued. -/
def int64Step (df : Batch) : Except String Batch :=
  reserved_fields.foldlM (stepM int64Cell) df

/-- The forced-text loop. -/
def stringStep (df : Batch) : Batch := applyGroup astypeStrCell string_columns df

/-- The full Type Coercion Stage, in source order: numeric conversion, the
two timezone-date columns, `business_day`, the `Int64` recast, the forced
text recast. -/
def coerceStage (df : Batch) : Except String Batch := do
  let d4 ← int64Step (businessDayStep (dateTZStep (numericStep df)))
  pure (stringStep d4)

/-- The row count of the batch (all columns share it in a pandas frame). -/
def nrows (df : Batch) : Nat := match df with | [] => 0 | p :: _ => p.2.length

/-- `df["load_time"] = datetime.utcnow()`: broadcast one scalar.  When the
label already exists the column is overwritten in place; otherwise a new
column is appended at the end. -/
def stampStep (df : Batch) (now : Cell) : Batch :=
  if hasCol df "load_time" then mapCol "load_time" (fun _ => List.replicate (nrows df) now) df
  else df ++ [("load_time", List.replicate (nrows df) now)]

/-! ## Spec-side definition for claim C2 (refinement comparison)

The spec's words: "strip exactly a trailing token of 2–4 uppercase letters
together with surrounding whitespace, then parse the remainder as a calendar
date".  This definition follows those words, to be compared with the source's
global `re.sub` above. -/

/-- Strip a trailing whitespace-delimited token of 2–4 uppercase letters and
the surrounding whitespace; leave the string (trimmed) otherwise. -/
def stripTrailingTZ_spec (l : List Char) : List Char :=
  let r := l.reverse.dropWhile isWS
  let u := r.takeWhile isUpperAZ
  if 2 ≤ u.length ∧ u.length ≤ 4 ∧ (r.drop u.length = [] ∨ (r.drop u.length).head?.any isWS) then
    stripL (r.drop u.length).reverse
  else stripL l

/-- The date coercion as the spec's words describe it (claim C2). -/
def coerce_tz_spec (s : String) : Option Date :=
  parseDT (stripTrailingTZ_spec s.data)

/-- No two adjacent underscores (no occurrence of the pattern `"__"`). -/
def hasUU : List Char → Bool
  | c :: d :: cs => (c = '_' && d = '_') || hasUU (d :: cs)
  | _ => false

/-! ## Lemmas about characters -/

theorem char_toNat_ofNat_valid {n : Nat} (h : n.isValidChar) : (Char.ofNat n).toNat = n := by
  unfold Char.ofNat
  rw [dif_pos h]
  rfl

theorem isUpperAZ_iff {c : Char} : isUpperAZ c = true ↔ 65 ≤ c.toNat ∧ c.toNat ≤ 90 := by
  unfold isUpperAZ
  simp only [Bool.and_eq_true, decide_eq_true_eq, Char.le_def, UInt32.le_def, BitVec.le_def]
  exact Iff.rfl

theorem lowerChar_toNat_of_upper {c : Char} (h : isUpperAZ c = true) :
    (lowerChar c).toNat = c.toNat + 32 := by
  have h' := isUpperAZ_iff.mp h
  have hv : (c.toNat + 32).isValidChar := Or.inl (by omega)
  unfold lowerChar
  rw [if_pos h]
  exact char_toNat_ofNat_valid hv

theorem isUpperAZ_lowerChar (c : Char) : isUpperAZ (lowerChar c) = false := by
  by_cases h : isUpperAZ c = true
  · have h' := isUpperAZ_iff.mp h
    have ht := lowerChar_toNat_of_upper h
    rw [← Bool.not_eq_true]
    intro hcon
    have := isUpperAZ_iff.mp hcon
    omega
  · unfold lowerChar
    rw [if_neg h]
    simpa using h

theorem lowerChar_eq_self {c : Char} (h : isUpperAZ c = false) : lowerChar c = c := by
  unfold lowerChar
  rw [if_neg (by simp [h])]

theorem toNat_of_isWS {c : Char} (h : isWS c = true) :
    c.toNat = 32 ∨ c.toNat = 9 ∨ c.toNat = 10 ∨ c.toNat = 13 := by
  unfold isWS at h
  simp only [Bool.or_eq_true, decide_eq_true_eq] at h
  rcases h with ((h | h) | h) | h <;> subst h <;> decide

theorem isWS_lowerChar (c : Char) : isWS (lowerChar c) = isWS c := by
  by_cases h : isUpperAZ c = true
  · have hup := isUpperAZ_iff.mp h
    have hlt := lowerChar_toNat_of_upper h
    have h1 : isWS (lowerChar c) = false := by
      rw [← Bool.not_eq_true]
      intro hw
      have := toNat_of_isWS hw
      omega
    have h2 : isWS c = false := by
      rw [← Bool.not_eq_true]
      intro hw
      have := toNat_of_isWS hw
      omega
    rw [h1, h2]
  · rw [lowerChar_eq_self (by simpa using h)]

/-! ## Lemmas about the string operations of `clean_column` -/

theorem mem_subChar {a b x : Char} {l : List Char} (h : x ∈ subChar a b l) :
    x = b ∨ (x ∈ l ∧ x ≠ a) := by
  unfold subChar at h
  rcases List.mem_map.mp h with ⟨d, hd, hmap⟩
  by_cases hda : d = a
  · rw [if_pos hda] at hmap
    exact Or.inl hmap.symm
  · rw [if_neg hda] at hmap
    exact Or.inr ⟨hmap ▸ hd, hmap ▸ hda⟩

theorem subChar_eq_self {a b : Char} {l : List Char} (h : a ∉ l) : subChar a b l = l := by
  induction l with
  | nil => rfl
  | cons c cs ih =>
    simp only [List.mem_cons, not_or] at h
    unfold subChar
    simp only [List.map_cons]
    rw [if_neg (fun hc => h.1 hc.symm)]
    have := ih h.2
    unfold subChar at this
    rw [this]

theorem mem_expandHash {x : Char} {l : List Char} (h : x ∈ expandHash l) :
    x ∈ ['n', 'u', 'm', 'b', 'e', 'r'] ∨ (x ∈ l ∧ x ≠ '#') := by
  induction l with
  | nil => simp [expandHash] at h
  | cons c cs ih =>
    unfold expandHash at h
    rcases List.mem_append.mp h with h1 | h2
    · by_cases hc : c = '#'
      · rw [if_pos hc] at h1
        exact Or.inl h1
      · rw [if_neg hc] at h1
        simp only [List.mem_singleton] at h1
        subst h1
        exact Or.inr ⟨List.mem_cons_self _ _, hc⟩
    · rcases ih h2 with h3 | ⟨h4, h5⟩
      · exact Or.inl h3
      · exact Or.inr ⟨List.mem_cons_of_mem _ h4, h5⟩

theorem expandHash_eq_self {l : List Char} (h : '#' ∉ l) : expandHash l = l := by
  induction l with
  | nil => rfl
  | cons c cs ih =>
    simp only [List.mem_cons, not_or] at h
    unfold expandHash
    rw [if_neg (fun hc => h.1 hc.symm), ih h.2]
    rfl

theorem mem_collapseUU : ∀ {l : List Char} {x : Char}, x ∈ collapseUU l → x ∈ l
  | [], x => by simp [collapseUU]
  | [c], x => by simp [collapseUU]
  | c :: d :: cs, x => by
    intro hx
    unfold collapseUU at hx
    by_cases h : c = '_' ∧ d = '_'
    · rw [if_pos h] at hx
      rcases List.mem_cons.mp hx with h1 | h2
      · rw [h1, ← h.1]
        exact List.mem_cons_self _ _
      · exact List.mem_cons_of_mem _ (List.mem_cons_of_mem _ (mem_collapseUU h2))
    · rw [if_neg h] at hx
      rcases List.mem_cons.mp hx with h1 | h2
      · subst h1
        exact List.mem_cons_self _ _
      · exact List.mem_cons_of_mem _ (mem_collapseUU h2)

theorem collapseUU_eq_self : ∀ {l : List Char}, hasUU l = false → collapseUU l = l
  | [], _ => rfl
  | [c], _ => rfl
  | c :: d :: cs, h => by
    unfold hasUU at h
    simp only [Bool.or_eq_false_iff, Bool.and_eq_false_iff] at h
    unfold collapseUU
    rw [if_neg, collapseUU_eq_self h.2]
    intro hcd
    rcases h.1 with h1 | h1 <;> simp [hcd.1, hcd.2] at h1

theorem collapseUU_ne_nil : ∀ {l : List Char}, l ≠ [] → collapseUU l ≠ []
  | [], h => absurd rfl h
  | [c], _ => by simp [collapseUU]
  | c :: d :: cs, _ => by
    unfold collapseUU
    split <;> simp

theorem expandHash_ne_nil : ∀ {l : List Char}, l ≠ [] → expandHash l ≠ []
  | [], h => absurd rfl h
  | c :: cs, _ => by
    unfold expandHash
    split <;> simp

/-! ## Edge characters of `clean_column` outputs (needed for idempotence) -/

theorem head?_dropWhile_not (p : Char → Bool) :
    ∀ {l : List Char} {c : Char}, (l.dropWhile p).head? = some c → p c = false
  | [], c => by simp [List.dropWhile]
  | x :: xs, c => by
    rw [List.dropWhile_cons]
    by_cases hx : p x
    · rw [if_pos hx]
      exact head?_dropWhile_not p
    · rw [if_neg hx]
      intro h
      simp only [List.head?_cons, Option.some_inj] at h
      rw [← h]
      simpa using hx

theorem getLast?_dropWhile (p : Char → Bool) :
    ∀ {l : List Char}, l.dropWhile p ≠ [] → (l.dropWhile p).getLast? = l.getLast?
  | [], h => absurd rfl h
  | x :: xs, h => by
    rw [List.dropWhile_cons] at h ⊢
    by_cases hx : p x
    · rw [if_pos hx] at h ⊢
      have hxs : xs ≠ [] := by
        intro he
        subst he
        simp [List.dropWhile] at h
      rw [getLast?_dropWhile p h]
      obtain ⟨y, ys, rfl⟩ := List.exists_cons_of_ne_nil hxs
      rw [List.getLast?_cons_cons]
    · rw [if_neg hx]

/-- No whitespace at either end. -/
def noWSedge (l : List Char) : Prop :=
  (∀ c, l.head? = some c → isWS c = false) ∧ (∀ c, l.getLast? = some c → isWS c = false)

theorem noWSedge_stripL (l : List Char) : noWSedge (stripL l) := by
  unfold stripL
  constructor
  · intro c hc
    rw [List.head?_reverse] at hc
    by_cases hne : (l.dropWhile isWS).reverse.dropWhile isWS = []
    · rw [hne] at hc
      simp at hc
    · rw [getLast?_dropWhile isWS hne, List.getLast?_reverse] at hc
      exact head?_dropWhile_not isWS hc
  · intro c hc
    rw [List.getLast?_reverse] at hc
    exact head?_dropWhile_not isWS hc

theorem noWSedge_map {f : Char → Char} (hf : ∀ c, isWS c = false → isWS (f c) = false)
    {l : List Char} (h : noWSedge l) : noWSedge (l.map f) := by
  constructor
  · intro c hc
    rw [List.head?_map] at hc
    cases hl : l.head? with
    | none => rw [hl] at hc; simp at hc
    | some d =>
      rw [hl] at hc
      simp only [Option.map_some'] at hc
      cases hc
      exact hf d (h.1 d hl)
  · intro c hc
    rw [List.getLast?_map] at hc
    cases hl : l.getLast? with
    | none => rw [hl] at hc; simp at hc
    | some d =>
      rw [hl] at hc
      simp only [Option.map_some'] at hc
      cases hc
      exact hf d (h.2 d hl)

theorem head?_expandHash : ∀ {l : List Char} {c : Char},
    (expandHash l).head? = some c → c = 'n' ∨ l.head? = some c
  | [], c => by simp [expandHash]
  | x :: xs, c => by
    unfold expandHash
    by_cases hx : x = '#'
    · rw [if_pos hx]
      intro h
      simp only [List.cons_append, List.head?_cons, Option.some_inj] at h
      exact Or.inl h.symm
    · rw [if_neg hx]
      intro h
      simp only [List.singleton_append, List.head?_cons, Option.some_inj] at h
      exact Or.inr (by rw [List.head?_cons, h])

theorem getLast?_expandHash : ∀ {l : List Char} {c : Char},
    (expandHash l).getLast? = some c → c = 'r' ∨ l.getLast? = some c
  | [], c => by simp [expandHash]
  | x :: xs, c => by
    unfold expandHash
    intro h
    rw [List.getLast?_append] at h
    by_cases hxs : xs = []
    · subst hxs
      simp only [expandHash, List.getLast?_nil, Option.none_or] at h
      by_cases hx : x = '#'
      · rw [if_pos hx] at h
        left
        have hr : (['n', 'u', 'm', 'b', 'e', 'r'] : List Char).getLast? = some 'r' := by decide
        rw [hr] at h
        exact (Option.some_inj.mp h).symm
      · rw [if_neg hx] at h
        simp only [List.getLast?_singleton, Option.some_inj] at h
        exact Or.inr (by simp [h])
    · have hne := expandHash_ne_nil hxs
      cases he : (expandHash xs).getLast? with
      | none => exact absurd (List.getLast?_eq_none_iff.mp he) hne
      | some y =>
        rw [he, Option.or_some] at h
        cases h
        rcases getLast?_expandHash he with h2 | h2
        · exact Or.inl h2
        · right
          obtain ⟨z, zs, rfl⟩ := List.exists_cons_of_ne_nil hxs
          rw [List.getLast?_cons_cons]
          exact h2

theorem head?_collapseUU : ∀ {l : List Char} {c : Char},
    (collapseUU l).head? = some c → c = '_' ∨ l.head? = some c
  | [], c => by simp [collapseUU]
  | [x], c => by
    intro h
    exact Or.inr h
  | x :: y :: cs, c => by
    unfold collapseUU
    by_cases h : x = '_' ∧ y = '_'
    · rw [if_pos h]
      intro hc
      simp only [List.head?_cons, Option.some_inj] at hc
      exact Or.inl hc.symm
    · rw [if_neg h]
      intro hc
      simp only [List.head?_cons, Option.some_inj] at hc
      exact Or.inr (by rw [List.head?_cons, hc])

theorem getLast?_collapseUU : ∀ {l : List Char} {c : Char},
    (collapseUU l).getLast? = some c → c = '_' ∨ l.getLast? = some c
  | [], c => by simp [collapseUU]
  | [x], c => by
    intro h
    exact Or.inr h
  | x :: y :: cs, c => by
    unfold collapseUU
    by_cases h : x = '_' ∧ y = '_'
    · rw [if_pos h]
      intro hc
      by_cases hcs : cs = []
      · subst hcs
        simp only [collapseUU, List.getLast?_singleton, Option.some_inj] at hc
        exact Or.inl hc.symm
      · have hne := collapseUU_ne_nil hcs
        obtain ⟨z, zs, hz⟩ := List.exists_cons_of_ne_nil hne
        rw [hz, List.getLast?_cons_cons] at hc
        rw [← hz] at hc
        rcases getLast?_collapseUU hc with h2 | h2
        · exact Or.inl h2
        · right
          obtain ⟨w, ws, rfl⟩ := List.exists_cons_of_ne_nil hcs
          rw [List.getLast?_cons_cons, List.getLast?_cons_cons]
          exact h2
    · rw [if_neg h]
      intro hc
      have hne : collapseUU (y :: cs) ≠ [] := collapseUU_ne_nil (by simp)
      obtain ⟨z, zs, hz⟩ := List.exists_cons_of_ne_nil hne
      rw [hz, List.getLast?_cons_cons] at hc
      rw [← hz] at hc
      rcases getLast?_collapseUU hc with h2 | h2
      · exact Or.inl h2
      · right
        rw [List.getLast?_cons_cons]
        exact h2

theorem noWSedge_expandHash {l : List Char} (h : noWSedge l) : noWSedge (expandHash l) := by
  constructor
  · intro c hc
    rcases head?_expandHash hc with rfl | hl
    · decide
    · exact h.1 c hl
  · intro c hc
    rcases getLast?_expandHash hc with rfl | hl
    · decide
    · exact h.2 c hl

theorem noWSedge_collapseUU {l : List Char} (h : noWSedge l) : noWSedge (collapseUU l) := by
  constructor
  · intro c hc
    rcases head?_collapseUU hc with rfl | hl
    · decide
    · exact h.1 c hl
  · intro c hc
    rcases getLast?_collapseUU hc with rfl | hl
    · decide
    · exact h.2 c hl

theorem noWSedge_cleanL (l : List Char) : noWSedge (cleanL l) := by
  unfold cleanL subChar lowerL
  apply noWSedge_collapseUU
  apply noWSedge_expandHash
  apply noWSedge_map
  · intro c hc
    by_cases h : c = '/'
    · rw [if_pos h]; decide
    · rwa [if_neg h]
  apply noWSedge_map
  · intro c hc
    by_cases h : c = '-'
    · rw [if_pos h]; decide
    · rwa [if_neg h]
  apply noWSedge_map
  · intro c hc
    by_cases h : c = ' '
    · rw [if_pos h]; decide
    · rwa [if_neg h]
  apply noWSedge_map
  · intro c hc
    rw [isWS_lowerChar]
    exact hc
  exact noWSedge_stripL l

/-! ## `clean_column` output characters and the fixed-point property -/

theorem cleanL_mem_safe {l : List Char} {c : Char} (hc : c ∈ cleanL l) :
    isUpperAZ c = false ∧ c ≠ ' ' ∧ c ≠ '-' ∧ c ≠ '/' ∧ c ≠ '#' := by
  unfold cleanL at hc
  have hc1 := mem_collapseUU hc
  rcases mem_expandHash hc1 with hn | ⟨hc2, hhash⟩
  · fin_cases hn <;> exact ⟨by decide, by decide, by decide, by decide, by decide⟩
  · rcases mem_subChar hc2 with rfl | ⟨hc3, hslash⟩
    · exact ⟨by decide, by decide, by decide, by decide, by decide⟩
    · rcases mem_subChar hc3 with rfl | ⟨hc4, hdash⟩
      · exact ⟨by decide, by decide, by decide, by decide, by decide⟩
      · rcases mem_subChar hc4 with rfl | ⟨hc5, hspace⟩
        · exact ⟨by decide, by decide, by decide, by decide, by decide⟩
        · rcases List.mem_map.mp hc5 with ⟨d, _, rfl⟩
          exact ⟨isUpperAZ_lowerChar d, hspace, hdash, hslash, hhash⟩

theorem dropWhile_eq_self_of_head (p : Char → Bool) {l : List Char}
    (h : ∀ c, l.head? = some c → p c = false) : l.dropWhile p = l := by
  cases l with
  | nil => rfl
  | cons x xs =>
    rw [List.dropWhile_cons, if_neg]
    simp [h x rfl]

theorem stripL_eq_self {l : List Char} (h : noWSedge l) : stripL l = l := by
  unfold stripL
  rw [dropWhile_eq_self_of_head isWS h.1]
  rw [dropWhile_eq_self_of_head isWS
        (by intro c hc; rw [List.head?_reverse] at hc; exact h.2 c hc)]
  exact List.reverse_reverse l

theorem lowerL_eq_self {l : List Char} (h : ∀ c ∈ l, isUpperAZ c = false) : lowerL l = l := by
  induction l with
  | nil => rfl
  | cons c cs ih =>
    unfold lowerL
    simp only [List.map_cons]
    rw [lowerChar_eq_self (h c (List.mem_cons_self _ _))]
    have := ih fun d hd => h d (List.mem_cons_of_mem _ hd)
    unfold lowerL at this
    rw [this]

/-- A string satisfying all the structural properties of `clean_column`
outputs — and additionally free of doubled separators — is a fixed point of
the normalizer. -/
theorem cleanL_eq_self {t : List Char} (hup : ∀ c ∈ t, isUpperAZ c = false)
    (hs : ' ' ∉ t) (hd : '-' ∉ t) (hsl : '/' ∉ t) (hh : '#' ∉ t)
    (he : noWSedge t) (huu : hasUU t = false) : cleanL t = t := by
  unfold cleanL
  rw [stripL_eq_self he, lowerL_eq_self hup, subChar_eq_self hs, subChar_eq_self hd,
      subChar_eq_self hsl, expandHash_eq_self hh, collapseUU_eq_self huu]

/-! ## Lemmas: the regex substitution removes every match, anywhere -/

theorem isWordChar_of_isUpperAZ {c : Char} (h : isUpperAZ c = true) : isWordChar c = true := by
  unfold isWordChar
  rw [h]
  rfl

theorem isUpperAZ_eq_false_of_not_word {c : Char} (h : isWordChar c = false) :
    isUpperAZ c = false := by
  by_cases hu : isUpperAZ c = true
  · rw [isWordChar_of_isUpperAZ hu] at h
    exact absurd h (by simp)
  · simpa using hu

theorem upRun_cons_upper {c : Char} (h : isUpperAZ c = true) (cs : List Char) :
    upRun (c :: cs) = upRun cs + 1 := by
  simp [upRun, h]

theorem upRun_cons_not_upper {c : Char} (h : isUpperAZ c = false) (cs : List Char) :
    upRun (c :: cs) = 0 := by
  simp [upRun, h]

theorem matchTZ_true_flag {pw : Bool} {l : List Char} (h : matchTZ pw l = true) :
    pw = false ∧ 2 ≤ upRun l ∧ upRun l ≤ 4 ∧ nonWordStart (l.drop (upRun l)) = true := by
  unfold matchTZ at h
  simp only [Bool.and_eq_true, Bool.not_eq_true', decide_eq_true_eq] at h
  exact ⟨h.1.1.1, h.1.1.2, h.1.2, h.2⟩

theorem matchTZ_of_pw (l : List Char) : matchTZ true l = false := rfl

theorem matchTZ_of_not_upper {c : Char} (h : isUpperAZ c = false) (pw : Bool) (cs : List Char) :
    matchTZ pw (c :: cs) = false := by
  unfold matchTZ
  rw [upRun_cons_not_upper h]
  simp

theorem resubScan_fuel : ∀ (n m : Nat) (pw : Bool) (l : List Char),
    l.length ≤ n → l.length ≤ m → resubScan n pw l = resubScan m pw l
  | n, m, _, [] => by
    intro _ _
    cases n <;> cases m <;> rfl
  | 0, _, _, c :: cs => by
    intro h _
    simp at h
  | _ + 1, 0, _, c :: cs => by
    intro _ h
    simp at h
  | n + 1, m + 1, pw, c :: cs => by
    intro hn hm
    simp only [List.length_cons] at hn hm
    unfold resubScan
    by_cases hmt : matchTZ pw (c :: cs) = true
    · rw [if_pos hmt, if_pos hmt]
      have h2 := (matchTZ_true_flag hmt).2.1
      apply resubScan_fuel <;> (simp only [List.length_drop, List.length_cons]; omega)
    · rw [if_neg hmt, if_neg hmt]
      congr 1
      apply resubScan_fuel <;> omega

theorem resubTZ_nil (pw : Bool) : resubTZ pw [] = [] := rfl

theorem resubTZ_cons (pw : Bool) (c : Char) (cs : List Char) :
    resubTZ pw (c :: cs) =
      if matchTZ pw (c :: cs) then resubTZ true ((c :: cs).drop (upRun (c :: cs)))
      else c :: resubTZ (isWordChar c) cs := by
  show resubScan (cs.length + 1) pw (c :: cs) = _
  unfold resubScan
  by_cases hmt : matchTZ pw (c :: cs) = true
  · rw [if_pos hmt, if_pos hmt]
    have h2 := (matchTZ_true_flag hmt).2.1
    exact resubScan_fuel _ _ _ _
      (by simp only [List.length_drop, List.length_cons]; omega) (Nat.le_refl _)
  · rw [if_neg hmt, if_neg hmt]
    rfl

/-- The scan after the maximal word prefix (helper for `resubTZ_true_word`). -/
def afterWord : List Char → List Char
  | [] => []
  | d :: ds => d :: resubTZ false ds

/-- With the previous character a word character, the scan copies the whole
word prefix verbatim (no match can start inside it), then continues at the
first non-word character. -/
theorem resubTZ_true_word : ∀ cs : List Char,
    resubTZ true cs = cs.takeWhile isWordChar ++ afterWord (cs.dropWhile isWordChar)
  | [] => rfl
  | c :: cs => by
    rw [resubTZ_cons, if_neg (by simp [matchTZ_of_pw])]
    by_cases hw : isWordChar c = true
    · rw [hw, resubTZ_true_word cs, List.takeWhile_cons, if_pos hw, List.dropWhile_cons,
          if_pos hw, List.cons_append]
    · have hw' : isWordChar c = false := by simpa using hw
      rw [hw', List.takeWhile_cons, if_neg (by simp [hw']), List.dropWhile_cons,
          if_neg (by simp [hw'])]
      rfl

theorem upRun_eq_zero_of_head {A : List Char}
    (h : ∀ d, A.head? = some d → isUpperAZ d = false) : upRun A = 0 := by
  cases A with
  | nil => rfl
  | cons d ds => exact upRun_cons_not_upper (h d rfl) ds

theorem upRun_append_eq {w A B : List Char} (hA : upRun A = 0) (hB : upRun B = 0) :
    upRun (w ++ A) = upRun (w ++ B) := by
  induction w with
  | nil => simpa using hA.trans hB.symm
  | cons x xs ih =>
    by_cases hx : isUpperAZ x = true
    · rw [List.cons_append, List.cons_append, upRun_cons_upper hx, upRun_cons_upper hx, ih]
    · have hx' : isUpperAZ x = false := by simpa using hx
      rw [List.cons_append, List.cons_append, upRun_cons_not_upper hx',
          upRun_cons_not_upper hx']

theorem upRun_append_le {w A : List Char} (hA : upRun A = 0) : upRun (w ++ A) ≤ w.length := by
  induction w with
  | nil => simp [hA]
  | cons x xs ih =>
    by_cases hx : isUpperAZ x = true
    · rw [List.cons_append, upRun_cons_upper hx, List.length_cons]
      omega
    · have hx' : isUpperAZ x = false := by simpa using hx
      rw [List.cons_append, upRun_cons_not_upper hx']
      simp

theorem nonWordStart_congr {A B : List Char} (h : A.head? = B.head?) :
    nonWordStart A = nonWordStart B := by
  cases A with
  | nil =>
    cases B with
    | nil => rfl
    | cons b bs => simp at h
  | cons a as =>
    cases B with
    | nil => simp at h
    | cons b bs =>
      simp only [List.head?_cons, Option.some_inj] at h
      unfold nonWordStart
      rw [h]

theorem nonWordStart_append_drop : ∀ (w : List Char) (k : Nat) {A B : List Char},
    k ≤ w.length → A.head? = B.head? →
    nonWordStart ((w ++ A).drop k) = nonWordStart ((w ++ B).drop k)
  | [], k, A, B => by
    intro hk h
    have hk0 : k = 0 := Nat.le_zero.mp (by simpa using hk)
    subst hk0
    simpa using nonWordStart_congr h
  | x :: xs, 0, A, B => by
    intro _ _
    rfl
  | x :: xs, k + 1, A, B => by
    intro hk h
    simp only [List.length_cons] at hk
    rw [List.cons_append, List.drop_succ_cons, List.cons_append, List.drop_succ_cons]
    exact nonWordStart_append_drop xs k (by omega) h

theorem afterWord_head? (t : List Char) : (afterWord t).head? = t.head? := by
  cases t <;> rfl

/-- Replacing the tail by its scan does not change whether the pattern
matches at an uppercase head: the scan keeps the word prefix intact and the
first non-word character in place. -/
theorem matchTZ_resub_true {c : Char} (hup : isUpperAZ c = true) (pw : Bool) (cs : List Char) :
    matchTZ pw (c :: resubTZ true cs) = matchTZ pw (c :: cs) := by
  rw [resubTZ_true_word cs]
  have hsplit : cs.takeWhile isWordChar ++ cs.dropWhile isWordChar = cs :=
    List.takeWhile_append_dropWhile isWordChar cs
  conv_rhs => rw [← hsplit]
  have hhead : (afterWord (cs.dropWhile isWordChar)).head? = (cs.dropWhile isWordChar).head? :=
    afterWord_head? _
  have htz : upRun (cs.dropWhile isWordChar) = 0 :=
    upRun_eq_zero_of_head fun d hd =>
      isUpperAZ_eq_false_of_not_word (head?_dropWhile_not _ hd)
  have hAz : upRun (afterWord (cs.dropWhile isWordChar)) = 0 :=
    upRun_eq_zero_of_head fun d hd => by
      rw [hhead] at hd
      exact isUpperAZ_eq_false_of_not_word (head?_dropWhile_not _ hd)
  have hrun : upRun (c :: (cs.takeWhile isWordChar ++ afterWord (cs.dropWhile isWordChar))) =
      upRun (c :: (cs.takeWhile isWordChar ++ cs.dropWhile isWordChar)) := by
    rw [upRun_cons_upper hup, upRun_cons_upper hup, upRun_append_eq hAz htz]
  unfold matchTZ
  rw [hrun]
  congr 1
  rw [upRun_cons_upper hup, List.drop_succ_cons, List.drop_succ_cons]
  exact nonWordStart_append_drop _ _ (upRun_append_le htz) hhead

theorem hasTZ_flag {X : List Char} (h : ∀ d, X.head? = some d → isWordChar d = false)
    (a b : Bool) : hasTZ a X = hasTZ b X := by
  cases X with
  | nil => rfl
  | cons d ds =>
    have hd := isUpperAZ_eq_false_of_not_word (h d rfl)
    simp only [hasTZ]
    rw [matchTZ_of_not_upper hd, matchTZ_of_not_upper hd]

/-- The output of the `re.sub` scan contains no match of `\b[A-Z]{2,4}\b`
anywhere: every word-delimited token of 2–4 uppercase letters has been
removed, and no removal creates a fresh token (a removed token is always
flanked by non-word characters, which stay). -/
theorem hasTZ_resubTZ : ∀ (l : List Char) (pw : Bool), hasTZ pw (resubTZ pw l) = false
  | [], _ => rfl
  | c :: cs, pw => by
    rw [resubTZ_cons]
    by_cases hm : matchTZ pw (c :: cs) = true
    · rw [if_pos hm]
      obtain ⟨hpw, h2, h4, hb⟩ := matchTZ_true_flag hm
      have hIH : hasTZ true (resubTZ true ((c :: cs).drop (upRun (c :: cs)))) = false :=
        hasTZ_resubTZ ((c :: cs).drop (upRun (c :: cs))) true
      cases hd : (c :: cs).drop (upRun (c :: cs)) with
      | nil => rfl
      | cons d ds =>
        rw [hd] at hIH hb
        have hdw : isWordChar d = false := by
          simpa [nonWordStart] using hb
        have hdu := isUpperAZ_eq_false_of_not_word hdw
        rw [resubTZ_cons, if_neg (by simp [matchTZ_of_pw]), hdw] at hIH ⊢
        simp only [hasTZ] at hIH ⊢
        rw [matchTZ_of_not_upper hdu] at hIH ⊢
        simpa using hIH
    · rw [if_neg hm]
      have hIH := hasTZ_resubTZ cs (isWordChar c)
      simp only [hasTZ]
      by_cases hup : isUpperAZ c = true
      · rw [isWordChar_of_isUpperAZ hup] at hIH ⊢
        rw [matchTZ_resub_true hup]
        simp [hIH, hm]
      · have hup' : isUpperAZ c = false := by simpa using hup
        rw [matchTZ_of_not_upper hup']
        simpa using hIH
termination_by l _ => l.length
decreasing_by
  · simp only [List.length_drop, List.length_cons]
    omega
  · simp

/-! ## Lemmas: batch plumbing -/

theorem exc_bind_ok {α β : Type} (a : α) (f : α → Except String β) :
    ((Except.ok a : Except String α) >>= f) = f a := rfl

theorem exc_bind_error {α β : Type} (e : String) (f : α → Except String β) :
    ((Except.error e : Except String α) >>= f) = Except.error e := rfl

theorem exc_pure {α : Type} (a : α) : (pure a : Except String α) = Except.ok a := rfl

theorem colNames_mapCol (c : String) (f : List Cell → List Cell) (df : Batch) :
    colNames (mapCol c f df) = colNames df := by
  unfold colNames mapCol
  rw [List.map_map]
  apply List.map_congr_left
  intro p _
  by_cases h : p.1 = c <;> simp [h]

theorem hasCol_false_iff (df : Batch) (c : String) :
    hasCol df c = false ↔ getCol df c = none := by
  unfold hasCol getCol
  simp [List.any_eq_true, List.find?_eq_none, Option.map_eq_none']

theorem hasCol_true_iff (df : Batch) (c : String) :
    hasCol df c = true ↔ ∃ vs, getCol df c = some vs := by
  rw [← Bool.not_eq_false, hasCol_false_iff]
  exact Option.ne_none_iff_exists'

theorem getCol_mapCol_self (c : String) (f : List Cell → List Cell) (df : Batch) :
    getCol (mapCol c f df) c = (getCol df c).map f := by
  induction df with
  | nil => rfl
  | cons p ps ih =>
    unfold getCol mapCol
    by_cases h : p.1 = c
    · rw [List.map_cons, if_pos h]
      rw [List.find?_cons_of_pos _ (by simpa using h), List.find?_cons_of_pos _ (by simpa using h)]
      rfl
    · rw [List.map_cons, if_neg h]
      rw [List.find?_cons_of_neg _ (by simpa using h), List.find?_cons_of_neg _ (by simpa using h)]
      exact ih

theorem getCol_mapCol_ne {c' c : String} (h : c' ≠ c) (f : List Cell → List Cell) (df : Batch) :
    getCol (mapCol c f df) c' = getCol df c' := by
  induction df with
  | nil => rfl
  | cons p ps ih =>
    unfold getCol mapCol
    by_cases hp : p.1 = c
    · have hp' : ¬p.1 = c' := by rw [hp]; exact fun he => h he.symm
      rw [List.map_cons, if_pos hp]
      rw [List.find?_cons_of_neg _ (by simpa using hp'), List.find?_cons_of_neg _ (by simpa using hp')]
      exact ih
    · rw [List.map_cons, if_neg hp]
      by_cases hp' : p.1 = c'
      · rw [List.find?_cons_of_pos _ (by simpa using hp'), List.find?_cons_of_pos _ (by simpa using hp')]
      · rw [List.find?_cons_of_neg _ (by simpa using hp'), List.find?_cons_of_neg _ (by simpa using hp')]
        exact ih

theorem hasCol_eq_names (df : Batch) (c : String) :
    hasCol df c = (colNames df).any fun n => n = c := by
  unfold hasCol colNames
  induction df with
  | nil => rfl
  | cons p ps ih =>
    simp only [List.any_cons, List.map_cons]
    rw [ih]

theorem hasCol_congr {df df' : Batch} (h : colNames df' = colNames df) (c : String) :
    hasCol df' c = hasCol df c := by
  rw [hasCol_eq_names, hasCol_eq_names, h]

theorem mapCol_not_mem {c : String} {df : Batch} (h : ¬c ∈ colNames df)
    (f : List Cell → List Cell) : mapCol c f df = df := by
  induction df with
  | nil => rfl
  | cons p ps ih =>
    simp only [colNames, List.map_cons, List.mem_cons, not_or] at h
    unfold mapCol
    rw [List.map_cons, if_neg (fun he => h.1 he.symm)]
    have := ih (by simpa [colNames] using h.2)
    unfold mapCol at this
    rw [this]

/-! ### `applyGroup` -/

theorem getCol_applyGroup_not_mem (f : Cell → Cell) :
    ∀ (names : List String) (df : Batch) {c : String}, c ∉ names →
      getCol (applyGroup f names df) c = getCol df c
  | [], _, _ => fun _ => rfl
  | n :: ns, df, c => fun h => by
    simp only [List.mem_cons, not_or] at h
    unfold applyGroup
    rw [List.foldl_cons]
    have hrec := getCol_applyGroup_not_mem f ns
      (if hasCol df n then mapCol n (List.map f) df else df) h.2
    unfold applyGroup at hrec
    rw [hrec]
    by_cases hc : hasCol df n = true
    · rw [if_pos hc, getCol_mapCol_ne h.1]
    · rw [if_neg hc]

theorem getCol_applyGroup_mem (f : Cell → Cell) :
    ∀ (names : List String) (df : Batch) {c : String}, names.Nodup → c ∈ names →
      getCol (applyGroup f names df) c = (getCol df c).map (List.map f)
  | [], _, _ => by
    intro _ h
    cases h
  | n :: ns, df, c => by
    intro hnd hc
    have hnd' := List.nodup_cons.mp hnd
    unfold applyGroup
    rw [List.foldl_cons]
    rcases List.mem_cons.mp hc with rfl | hmem
    · have hnot := getCol_applyGroup_not_mem f ns
        (if hasCol df c then mapCol c (List.map f) df else df) hnd'.1
      unfold applyGroup at hnot
      rw [hnot]
      by_cases hh : hasCol df c = true
      · rw [if_pos hh, getCol_mapCol_self]
      · rw [if_neg hh, (hasCol_false_iff df c).mp (by simpa using hh)]
        rfl
    · have hrec := getCol_applyGroup_mem f ns
        (if hasCol df n then mapCol n (List.map f) df else df) hnd'.2 hmem
      unfold applyGroup at hrec
      rw [hrec]
      by_cases hcn : c = n
      · exact absurd (hcn ▸ hmem) hnd'.1
      · by_cases hh : hasCol df n = true
        · rw [if_pos hh, getCol_mapCol_ne hcn]
        · rw [if_neg hh]

theorem applyGroup_all_absent (f : Cell → Cell) :
    ∀ (names : List String) (df : Batch), (∀ c ∈ names, hasCol df c = false) →
      applyGroup f names df = df
  | [], _, _ => rfl
  | n :: ns, df, h => by
    unfold applyGroup
    rw [List.foldl_cons, if_neg (by simp [h n (List.mem_cons_self _ _)])]
    have := applyGroup_all_absent f ns df fun c hc => h c (List.mem_cons_of_mem _ hc)
    unfold applyGroup at this
    rw [this]

/-! ### Shapes (column names with their row counts) -/

/-- The shape of a batch: each column's label and row count, in order. -/
def shape (df : Batch) : List (String × Nat) := df.map fun p => (p.1, p.2.length)

theorem colNames_eq_shape_map (df : Batch) : colNames df = (shape df).map Prod.fst := by
  unfold colNames shape
  rw [List.map_map]
  rfl

theorem shape_mapCol_map (c : String) (g : Cell → Cell) (df : Batch) :
    shape (mapCol c (List.map g) df) = shape df := by
  unfold shape mapCol
  rw [List.map_map]
  apply List.map_congr_left
  intro p _
  by_cases h : p.1 = c <;> simp [h]

theorem shape_applyGroup (f : Cell → Cell) :
    ∀ (names : List String) (df : Batch), shape (applyGroup f names df) = shape df
  | [], _ => rfl
  | n :: ns, df => by
    unfold applyGroup
    rw [List.foldl_cons]
    have hrec := shape_applyGroup f ns (if hasCol df n then mapCol n (List.map f) df else df)
    unfold applyGroup at hrec
    rw [hrec]
    by_cases hh : hasCol df n = true
    · rw [if_pos hh, shape_mapCol_map]
    · rw [if_neg hh]

theorem shape_mapCol_const {df : Batch} {c : String} {vs ws : List Cell}
    (hnd : (colNames df).Nodup) (hget : getCol df c = some vs) (hlen : ws.length = vs.length) :
    shape (mapCol c (fun _ => ws) df) = shape df := by
  induction df with
  | nil => simp [getCol] at hget
  | cons p ps ih =>
    rw [show colNames (p :: ps) = p.1 :: colNames ps from rfl] at hnd
    have hnd' := List.nodup_cons.mp hnd
    unfold shape mapCol
    rw [List.map_cons, List.map_cons]
    by_cases h : p.1 = c
    · unfold getCol at hget
      rw [List.find?_cons_of_pos _ (by simpa using h)] at hget
      simp only [Option.map_some', Option.some_inj] at hget
      rw [if_pos h]
      have hps : mapCol c (fun _ => ws) ps = ps := mapCol_not_mem (h ▸ hnd'.1) _
      unfold mapCol at hps
      rw [hps]
      simp [hget, hlen]
    · unfold getCol at hget
      rw [List.find?_cons_of_neg _ (by simpa using h)] at hget
      rw [if_neg h]
      have := ih hnd'.2 hget
      unfold shape mapCol at this
      rw [this, List.map_cons]

/-! ### `businessDayStep` -/

theorem getCol_businessDayStep_ne {c : String} (h : c ≠ "business_day") (df : Batch) :
    getCol (businessDayStep df) c = getCol df c := by
  unfold businessDayStep
  by_cases hh : hasCol df "business_day" = true
  · rw [if_pos hh, getCol_mapCol_ne h]
  · rw [if_neg hh]

theorem getCol_businessDayStep_self (df : Batch) :
    getCol (businessDayStep df) "business_day" =
      (getCol df "business_day").map (List.map parse_date_cell) := by
  unfold businessDayStep
  by_cases hh : hasCol df "business_day" = true
  · rw [if_pos hh, getCol_mapCol_self]
  · rw [if_neg hh, (hasCol_false_iff df _).mp (by simpa using hh)]
    rfl

theorem shape_businessDayStep (df : Batch) : shape (businessDayStep df) = shape df := by
  unfold businessDayStep
  by_cases hh : hasCol df "business_day" = true
  · rw [if_pos hh, shape_mapCol_map]
  · rw [if_neg hh]

/-! ### `mapCellsM` and the monadic fold of the `Int64` recast -/

theorem mapCellsM_ok_of_all (g : Cell → Except String Cell) :
    ∀ (vs : List Cell), (∀ v ∈ vs, ∃ w, g v = .ok w) → ∃ ws, mapCellsM g vs = .ok ws
  | [], _ => ⟨[], rfl⟩
  | v :: vs, h => by
    obtain ⟨w, hw⟩ := h v (List.mem_cons_self _ _)
    obtain ⟨ws, hws⟩ := mapCellsM_ok_of_all g vs fun u hu => h u (List.mem_cons_of_mem _ hu)
    refine ⟨w :: ws, ?_⟩
    unfold mapCellsM
    rw [hw, exc_bind_ok, hws, exc_bind_ok]
    rfl

theorem mapCellsM_length (g : Cell → Except String Cell) :
    ∀ {vs ws : List Cell}, mapCellsM g vs = .ok ws → ws.length = vs.length
  | [], ws => by
    intro h
    unfold mapCellsM at h
    cases h
    rfl
  | v :: vs, ws => by
    intro h
    unfold mapCellsM at h
    cases hw : g v with
    | error e => rw [hw, exc_bind_error] at h; cases h
    | ok w =>
      rw [hw, exc_bind_ok] at h
      cases hws : mapCellsM g vs with
      | error e => rw [hws, exc_bind_error] at h; cases h
      | ok ws' =>
        rw [hws, exc_bind_ok, exc_pure] at h
        cases h
        simp [mapCellsM_length g hws]

theorem mapCellsM_get? (g : Cell → Except String Cell) :
    ∀ {vs ws : List Cell}, mapCellsM g vs = .ok ws →
      ∀ i v, vs.get? i = some v → ∃ w, g v = .ok w ∧ ws.get? i = some w
  | [], ws => by
    intro _ i v hv
    simp at hv
  | v :: vs, ws => by
    intro h i u hu
    unfold mapCellsM at h
    cases hw : g v with
    | error e => rw [hw, exc_bind_error] at h; cases h
    | ok w =>
      rw [hw, exc_bind_ok] at h
      cases hws : mapCellsM g vs with
      | error e => rw [hws, exc_bind_error] at h; cases h
      | ok ws' =>
        rw [hws, exc_bind_ok, exc_pure] at h
        cases h
        cases i with
        | zero =>
          simp only [List.get?_cons_zero, Option.some_inj] at hu
          exact ⟨w, hu ▸ hw, rfl⟩
        | succ i =>
          simp only [List.get?_cons_succ] at hu ⊢
          exact mapCellsM_get? g hws i u hu

/-! ### The monadic per-column fold -/

theorem stepM_ok_colNames {g : Cell → Except String Cell} {df acc : Batch} {col : String}
    (h : stepM g df col = .ok acc) : colNames acc = colNames df := by
  unfold stepM at h
  by_cases hh : hasCol df col = true
  · rw [if_pos hh] at h
    obtain ⟨vs, hvs⟩ := (hasCol_true_iff df col).mp hh
    simp only [hvs] at h
    cases hws : mapCellsM g vs with
    | error e => rw [hws, exc_bind_error] at h; cases h
    | ok ws =>
      rw [hws, exc_bind_ok, exc_pure] at h
      cases h
      exact colNames_mapCol _ _ _
  · rw [if_neg hh, exc_pure] at h
    cases h
    rfl

theorem stepM_ok_getCol_ne {g : Cell → Except String Cell} {df acc : Batch} {col c : String}
    (hne : c ≠ col) (h : stepM g df col = .ok acc) : getCol acc c = getCol df c := by
  unfold stepM at h
  by_cases hh : hasCol df col = true
  · rw [if_pos hh] at h
    obtain ⟨vs, hvs⟩ := (hasCol_true_iff df col).mp hh
    simp only [hvs] at h
    cases hws : mapCellsM g vs with
    | error e => rw [hws, exc_bind_error] at h; cases h
    | ok ws =>
      rw [hws, exc_bind_ok, exc_pure] at h
      cases h
      exact getCol_mapCol_ne hne _ _
  · rw [if_neg hh, exc_pure] at h
    cases h
    rfl

theorem foldlM_stepM_getCol_not_mem {g : Cell → Except String Cell} :
    ∀ {names : List String} {df df' : Batch} {c : String}, c ∉ names →
      List.foldlM (stepM g) df names = .ok df' → getCol df' c = getCol df c
  | [], df, df', c => by
    intro _ h
    rw [List.foldlM_nil, exc_pure] at h
    cases h
    rfl
  | n :: ns, df, df', c => by
    intro hc h
    simp only [List.mem_cons, not_or] at hc
    rw [List.foldlM_cons] at h
    cases hstep : stepM g df n with
    | error e => rw [hstep, exc_bind_error] at h; cases h
    | ok acc =>
      rw [hstep, exc_bind_ok] at h
      rw [foldlM_stepM_getCol_not_mem hc.2 h, stepM_ok_getCol_ne hc.1 hstep]

theorem foldlM_stepM_getCol_mem {g : Cell → Except String Cell} :
    ∀ {names : List String} {df df' : Batch} {c : String}, names.Nodup → c ∈ names →
      List.foldlM (stepM g) df names = .ok df' →
      (getCol df c = none ∧ getCol df' c = none) ∨
        (∃ vs ws, getCol df c = some vs ∧ mapCellsM g vs = .ok ws ∧ getCol df' c = some ws)
  | [], df, df', c => by
    intro _ h
    cases h
  | n :: ns, df, df', c => by
    intro hnd hc h
    have hnd' := List.nodup_cons.mp hnd
    rw [List.foldlM_cons] at h
    cases hstep : stepM g df n with
    | error e => rw [hstep, exc_bind_error] at h; cases h
    | ok acc =>
      rw [hstep, exc_bind_ok] at h
      rcases List.mem_cons.mp hc with rfl | hmem
      · have hrest := foldlM_stepM_getCol_not_mem hnd'.1 h
        unfold stepM at hstep
        by_cases hh : hasCol df c = true
        · rw [if_pos hh] at hstep
          obtain ⟨vs, hvs⟩ := (hasCol_true_iff df c).mp hh
          simp only [hvs] at hstep
          cases hws : mapCellsM g vs with
          | error e => rw [hws, exc_bind_error] at hstep; cases hstep
          | ok ws =>
            rw [hws, exc_bind_ok, exc_pure] at hstep
            cases hstep
            refine Or.inr ⟨vs, ws, hvs, hws, ?_⟩
            rw [hrest, getCol_mapCol_self, hvs]
            rfl
        · rw [if_neg hh, exc_pure] at hstep
          cases hstep
          have hnone := (hasCol_false_iff df c).mp (by simpa using hh)
          exact Or.inl ⟨hnone, by rw [hrest, hnone]⟩
      · by_cases hcn : c = n
        · exact absurd (hcn ▸ hmem) hnd'.1
        · have := foldlM_stepM_getCol_mem hnd'.2 hmem h
          rw [stepM_ok_getCol_ne hcn hstep] at this
          exact this

theorem foldlM_stepM_ok_of_all {g : Cell → Except String Cell} :
    ∀ {names : List String} {df : Batch}, names.Nodup →
      (∀ c ∈ names, ∀ vs, getCol df c = some vs → ∀ v ∈ vs, ∃ w, g v = .ok w) →
      ∃ df', List.foldlM (stepM g) df names = .ok df'
  | [], df => fun _ _ => ⟨df, rfl⟩
  | n :: ns, df => by
    intro hnd hall
    have hnd' := List.nodup_cons.mp hnd
    rw [List.foldlM_cons]
    by_cases hh : hasCol df n = true
    · obtain ⟨vs, hvs⟩ := (hasCol_true_iff df n).mp hh
      obtain ⟨ws, hws⟩ := mapCellsM_ok_of_all g vs (hall n (List.mem_cons_self _ _) vs hvs)
      have hstep : stepM g df n = .ok (mapCol n (fun _ => ws) df) := by
        unfold stepM
        rw [if_pos hh]
        simp only [hvs, hws, exc_bind_ok]
        rfl
      rw [hstep, exc_bind_ok]
      apply foldlM_stepM_ok_of_all hnd'.2
      intro c hc vs' hvs' v hv
      have hcn : c ≠ n := fun he => hnd'.1 (he ▸ hc)
      rw [getCol_mapCol_ne hcn] at hvs'
      exact hall c (List.mem_cons_of_mem _ hc) vs' hvs' v hv
    · have hstep : stepM g df n = .ok df := by
        unfold stepM
        rw [if_neg hh]
        rfl
      rw [hstep, exc_bind_ok]
      apply foldlM_stepM_ok_of_all hnd'.2
      intro c hc vs' hvs' v hv
      exact hall c (List.mem_cons_of_mem _ hc) vs' hvs' v hv

theorem foldlM_stepM_shape {g : Cell → Except String Cell} :
    ∀ {names : List String} {df df' : Batch}, (colNames df).Nodup →
      List.foldlM (stepM g) df names = .ok df' → shape df' = shape df
  | [], df, df' => by
    intro _ h
    rw [List.foldlM_nil, exc_pure] at h
    cases h
    rfl
  | n :: ns, df, df' => by
    intro hnd h
    rw [List.foldlM_cons] at h
    cases hstep : stepM g df n with
    | error e => rw [hstep, exc_bind_error] at h; cases h
    | ok acc =>
      rw [hstep, exc_bind_ok] at h
      have hshape : shape acc = shape df := by
        unfold stepM at hstep
        by_cases hh : hasCol df n = true
        · rw [if_pos hh] at hstep
          obtain ⟨vs, hvs⟩ := (hasCol_true_iff df n).mp hh
          simp only [hvs] at hstep
          cases hws : mapCellsM g vs with
          | error e => rw [hws, exc_bind_error] at hstep; cases hstep
          | ok ws =>
            rw [hws, exc_bind_ok, exc_pure] at hstep
            cases hstep
            exact shape_mapCol_const hnd hvs (mapCellsM_length g hws)
        · rw [if_neg hh, exc_pure] at hstep
          cases hstep
          rfl
      have hnd' : (colNames acc).Nodup := by
        rw [colNames_eq_shape_map, hshape, ← colNames_eq_shape_map]
        exact hnd
      rw [foldlM_stepM_shape hnd' h, hshape]

theorem foldlM_stepM_all_absent {g : Cell → Except String Cell} :
    ∀ {names : List String} {df : Batch}, (∀ c ∈ names, hasCol df c = false) →
      List.foldlM (stepM g) df names = .ok df
  | [], _ => fun _ => rfl
  | n :: ns, df => fun h => by
    rw [List.foldlM_cons]
    have hstep : stepM g df n = .ok df := by
      unfold stepM
      rw [if_neg (by simp [h n (List.mem_cons_self _ _)])]
      rfl
    rw [hstep, exc_bind_ok]
    exact foldlM_stepM_all_absent fun c hc => h c (List.mem_cons_of_mem _ hc)

/-! ### The full coercion stage -/

theorem coerceStage_ok_iff {df df' : Batch} :
    coerceStage df = .ok df' ↔
      ∃ d4, int64Step (businessDayStep (dateTZStep (numericStep df))) = .ok d4 ∧
        df' = stringStep d4 := by
  unfold coerceStage
  cases h : int64Step (businessDayStep (dateTZStep (numericStep df))) with
  | error e =>
    rw [exc_bind_error]
    constructor
    · intro hc
      cases hc
    · rintro ⟨d4, hd4, _⟩
      cases hd4
  | ok d4 =>
    rw [exc_bind_ok, exc_pure]
    constructor
    · intro hc
      cases hc
      exact ⟨d4, rfl, rfl⟩
    · rintro ⟨d4', hd4, he⟩
      cases hd4
      rw [he]

/-! ## Claim C4 (corrected): idempotence of the normalizer -/

/-- C4, counterexample: `clean_column` is not idempotent.  For the raw header
`"a - b"` the normalizer yields `"a__b"` (the single collapse pass of
`replace("__", "_")` turns the three underscores of `"a___b"` into two), and
re-normalizing collapses once more to `"a_b"`. -/
theorem C4_clean_column_not_idempotent :
    clean_column (clean_column "a - b") ≠ clean_column "a - b" := by decide

/-- C4, amended: re-normalizing returns the name unchanged for every string
whose normalized form contains no doubled separator `"__"` (the doubled-
separator collapse is single-pass, which is the only source of
non-idempotence). -/
theorem C4_clean_column_idempotent_of_no_doubled_sep (s : String)
    (h : hasUU (clean_column s).data = false) :
    clean_column (clean_column s) = clean_column s := by
  have key : cleanL (cleanL s.data) = cleanL s.data := by
    refine cleanL_eq_self ?_ ?_ ?_ ?_ ?_ (noWSedge_cleanL s.data) h
    · exact fun c hc => (cleanL_mem_safe hc).1
    · exact fun hc => (cleanL_mem_safe hc).2.1 rfl
    · exact fun hc => (cleanL_mem_safe hc).2.2.1 rfl
    · exact fun hc => (cleanL_mem_safe hc).2.2.2.1 rfl
    · exact fun hc => (cleanL_mem_safe hc).2.2.2.2 rfl
  unfold clean_column
  exact congrArg String.mk key

/-- C4, witness for the amended theorem at the canonical header
`"Settlement Date/Time"`. -/
theorem C4_clean_column_idempotent_witness :
    hasUU (clean_column "Settlement Date/Time").data = false ∧
    clean_column (clean_column "Settlement Date/Time") = clean_column "Settlement Date/Time" :=
  ⟨by decide, C4_clean_column_idempotent_of_no_doubled_sep "Settlement Date/Time" (by decide)⟩

/-! ## Claim C9 (confirmed): the normalizer removes spaces, hyphens, slashes -/

/-- C9: for every raw column name containing a space, hyphen or slash, the
normalized name contains none of those characters (in fact this holds for
every raw name). -/
theorem C9_clean_column_no_separators (s : String)
    (h : ∃ c ∈ s.data, c = ' ' ∨ c = '-' ∨ c = '/') :
    ∀ c ∈ (clean_column s).data, c ≠ ' ' ∧ c ≠ '-' ∧ c ≠ '/' := by
  intro c hc
  have hsafe := cleanL_mem_safe (l := s.data) hc
  exact ⟨hsafe.2.1, hsafe.2.2.1, hsafe.2.2.2.1⟩

/-- C9, witness at `"Settlement Date/Time"`. -/
theorem C9_clean_column_no_separators_witness :
    (∃ c ∈ ("Settlement Date/Time" : String).data, c = ' ' ∨ c = '-' ∨ c = '/') ∧
    ∀ c ∈ (clean_column "Settlement Date/Time").data, c ≠ ' ' ∧ c ≠ '-' ∧ c ≠ '/' :=
  ⟨by decide, C9_clean_column_no_separators "Settlement Date/Time" (by decide)⟩

/-! ## Claim C3 (corrected): colliding headers after normalization -/

/-- C3, counterexample: the raw headers `"a b"` and `"a-b"` both normalize to
`"a_b"`, and after the relabelling step the batch holds the canonical name
twice — two columns, each with its own values — not once with the later
column's values: pandas permits duplicate labels and `df.columns = [...]`
overwrites nothing. -/
theorem C3_relabel_keeps_both_columns :
    clean_column "a b" = clean_column "a-b" ∧ ("a b" : String) ≠ "a-b" ∧
    normalizeStep [("a b", [Cell.txt "1"]), ("a-b", [Cell.txt "2"])] =
      [("a_b", [Cell.txt "1"]), ("a_b", [Cell.txt "2"])] ∧
    (colNames (normalizeStep [("a b", [Cell.txt "1"]), ("a-b", [Cell.txt "2"])])).count "a_b" = 2 := by
  refine ⟨by decide, by decide, by decide, by decide⟩

/-- C3, amended: when two distinct raw headers normalize to the same
canonical name, the relabelling step keeps both columns — each at its
original position with its original values, now under the shared canonical
label — and the batch's column count is unchanged (no error, no overwrite at
this step). -/
theorem C3_normalize_preserves_colliding_columns (df : Batch) (i j : Nat)
    (n₁ n₂ : String) (v₁ v₂ : List Cell)
    (hi : df.get? i = some (n₁, v₁)) (hj : df.get? j = some (n₂, v₂))
    (hne : n₁ ≠ n₂) (hcl : clean_column n₁ = clean_column n₂) :
    (normalizeStep df).get? i = some (clean_column n₁, v₁) ∧
    (normalizeStep df).get? j = some (clean_column n₁, v₂) ∧
    (normalizeStep df).length = df.length := by
  unfold normalizeStep
  refine ⟨?_, ?_, List.length_map _ _⟩
  · rw [List.get?_map, hi]
    rfl
  · rw [List.get?_map, hj]
    simp [hcl]

/-- C3, witness for the amended theorem. -/
theorem C3_normalize_preserves_colliding_columns_witness :
    (normalizeStep [("a b", [Cell.txt "1"]), ("a-b", [Cell.txt "2"])]).get? 0 =
      some (clean_column "a b", [Cell.txt "1"]) ∧
    (normalizeStep [("a b", [Cell.txt "1"]), ("a-b", [Cell.txt "2"])]).get? 1 =
      some (clean_column "a b", [Cell.txt "2"]) ∧
    (normalizeStep [("a b", [Cell.txt "1"]), ("a-b", [Cell.txt "2"])]).length =
      ([("a b", [Cell.txt "1"]), ("a-b", [Cell.txt "2"])] : Batch).length :=
  C3_normalize_preserves_colliding_columns _ 0 1 "a b" "a-b" [Cell.txt "1"] [Cell.txt "2"]
    rfl rfl (by decide) (by decide)

/-! ## Claim C7 (corrected): the timestamp stamper -/

/-- C7, counterexample: on a batch that already carries a `load_time` column
(e.g. an upload whose file has a `Load Time` header), the stamper overwrites
that column in place and adds nothing, so the batch does not gain exactly one
column. -/
theorem C7_stamp_overwrites_existing_column :
    stampStep [("load_time", [Cell.txt "x"])] (Cell.dt 0) = [("load_time", [Cell.dt 0])] ∧
    (stampStep [("load_time", [Cell.txt "x"])] (Cell.dt 0)).length ≠
      ([("load_time", [Cell.txt "x"])] : Batch).length + 1 := by
  refine ⟨by decide, by decide⟩

/-- C7, amended: provided the incoming batch has no `load_time` column, the
stamper appends exactly one new column, positioned last, holding one copy of
the stamping moment per row — the same single timestamp in every row. -/
theorem C7_stamp_adds_single_uniform_timestamp (df : Batch) (now : Cell)
    (h : hasCol df "load_time" = false) :
    stampStep df now = df ++ [("load_time", List.replicate (nrows df) now)] ∧
    (stampStep df now).length = df.length + 1 ∧
    (stampStep df now).getLast? = some ("load_time", List.replicate (nrows df) now) ∧
    (List.replicate (nrows df) now).length = nrows df ∧
    ∀ v ∈ List.replicate (nrows df) now, v = now := by
  unfold stampStep
  rw [if_neg (by simp [h])]
  refine ⟨rfl, by simp, by simp, List.length_replicate _ _,
    fun v hv => List.eq_of_mem_replicate hv⟩

/-! ## Disjointness of the four column groups -/

theorem reserved_sub_numeric : ∀ {c : String}, c ∈ reserved_fields → c ∈ numeric_fields := by
  intro c h
  fin_cases h <;> decide

theorem numeric_not_other {c : String} (h : c ∈ numeric_fields) :
    c ∉ date_tz_fields ∧ c ≠ "business_day" ∧ c ∉ string_columns := by
  fin_cases h <;> exact ⟨by decide, by decide, by decide⟩

theorem date_tz_not_other {c : String} (h : c ∈ date_tz_fields) :
    c ∉ numeric_fields ∧ c ≠ "business_day" ∧ c ∉ reserved_fields ∧ c ∉ string_columns := by
  fin_cases h <;> exact ⟨by decide, by decide, by decide, by decide⟩

theorem string_not_other {c : String} (h : c ∈ string_columns) :
    c ∉ numeric_fields ∧ c ∉ date_tz_fields ∧ c ≠ "business_day" ∧ c ∉ reserved_fields := by
  fin_cases h <;> exact ⟨by decide, by decide, by decide, by decide⟩

/-! ## Claim C5 (confirmed): non-numeric text degrades to missing -/

/-- C5: for a column of the numeric-amount group present in the batch, a cell
of non-numeric text (one `pd.to_numeric` cannot parse) is stored as a missing
value by the numeric coercion loop, no error is raised (the loop is total),
and the batch keeps its shape — every row survives.  Stated for batches with
distinct column labels, as produced by the file readers. -/
theorem C5_numeric_nonparse_to_missing (df : Batch) (hnd : (colNames df).Nodup)
    (col : String) (hcol : col ∈ numeric_fields) (i : Nat) (s : String)
    (hcell : cellAt df col i = some (Cell.txt s)) (hfail : parseNumeric s = none) :
    cellAt (numericStep df) col i = some Cell.na ∧ shape (numericStep df) = shape df := by
  refine ⟨?_, shape_applyGroup _ _ _⟩
  unfold cellAt at hcell ⊢
  unfold numericStep
  rw [getCol_applyGroup_mem toNumericCell numeric_fields df (by decide) hcol]
  cases hg : getCol df col with
  | none =>
    rw [hg] at hcell
    simp at hcell
  | some vs =>
    rw [hg] at hcell
    simp only [Option.some_bind] at hcell
    simp only [Option.map_some', Option.some_bind, List.get?_map, hcell]
    simp [toNumericCell, hfail]

/-- C5, witness at a `"N/A"` cell of `total_amount`. -/
theorem C5_numeric_nonparse_to_missing_witness :
    cellAt (numericStep [("total_amount", [Cell.txt "N/A"])]) "total_amount" 0 =
        some Cell.na ∧
    shape (numericStep [("total_amount", [Cell.txt "N/A"])]) =
        shape [("total_amount", [Cell.txt "N/A"])] :=
  C5_numeric_nonparse_to_missing [("total_amount", [Cell.txt "N/A"])] (by decide)
    "total_amount" (by decide) 0 "N/A" (by decide) (by decide)

/-! ## Claim C6 (confirmed): reserved columns become nullable integers -/

/-- C6: in a reserved column, after the full coercion stage a cell whose
original text was `"12.0"` holds the integer `12`, and a cell whose original
text was `"abc"` holds a missing value (the numeric coercion degrades it to
missing and the `Int64` recast preserves missingness).  Stated for batches
with distinct column labels, as produced by the file readers. -/
theorem C6_reserved_coercion (df df' : Batch) (hnd : (colNames df).Nodup)
    (col : String) (hcol : col ∈ reserved_fields) (i j : Nat)
    (h12 : cellAt df col i = some (Cell.txt "12.0"))
    (habc : cellAt df col j = some (Cell.txt "abc"))
    (hok : coerceStage df = .ok df') :
    cellAt df' col i = some (Cell.int 12) ∧ cellAt df' col j = some Cell.na := by
  obtain ⟨d4, hd4, rfl⟩ := coerceStage_ok_iff.mp hok
  have hnum : col ∈ numeric_fields := reserved_sub_numeric hcol
  have hno := numeric_not_other hnum
  unfold cellAt at h12 habc
  cases hg : getCol df col with
  | none =>
    rw [hg] at h12
    simp at h12
  | some vs =>
    rw [hg] at h12 habc
    simp only [Option.some_bind] at h12 habc
    have hd1 : getCol (numericStep df) col = some (vs.map toNumericCell) := by
      unfold numericStep
      rw [getCol_applyGroup_mem toNumericCell numeric_fields df (by decide) hnum, hg]
      rfl
    have hd3 : getCol (businessDayStep (dateTZStep (numericStep df))) col =
        some (vs.map toNumericCell) := by
      rw [getCol_businessDayStep_ne hno.2.1]
      unfold dateTZStep
      rw [getCol_applyGroup_not_mem _ _ _ hno.1, hd1]
    unfold int64Step at hd4
    rcases foldlM_stepM_getCol_mem (by decide) hcol hd4 with
      ⟨hnone, _⟩ | ⟨vs₃, ws, hvs₃, hws, hd4col⟩
    · rw [hd3] at hnone
      cases hnone
    · rw [hd3] at hvs₃
      injection hvs₃ with hvs₃
      subst hvs₃
      have hstr : getCol (stringStep d4) col = getCol d4 col := by
        unfold stringStep
        exact getCol_applyGroup_not_mem _ _ _ hno.2.2
      unfold cellAt
      rw [hstr, hd4col]
      simp only [Option.some_bind]
      constructor
      · have hvi : (vs.map toNumericCell).get? i = some (toNumericCell (Cell.txt "12.0")) := by
          rw [List.get?_map, h12]
          rfl
        obtain ⟨w, hw, hwsi⟩ := mapCellsM_get? _ hws i _ hvi
        have hw' : Except.ok (Cell.int 12) = Except.ok w :=
          (show int64Cell (toNumericCell (Cell.txt "12.0")) = Except.ok (Cell.int 12)
              from rfl) ▸ hw
        rw [hwsi, Except.ok.inj hw']
      · have hvj : (vs.map toNumericCell).get? j = some (toNumericCell (Cell.txt "abc")) := by
          rw [List.get?_map, habc]
          rfl
        obtain ⟨w, hw, hwsj⟩ := mapCellsM_get? _ hws j _ hvj
        have hw' : Except.ok Cell.na = Except.ok w :=
          (show int64Cell (toNumericCell (Cell.txt "abc")) = Except.ok Cell.na
              from rfl) ▸ hw
        rw [hwsj, Except.ok.inj hw']

/-- C6, witness: a two-row reserved column with `"12.0"` and `"abc"`. -/
theorem C6_reserved_coercion_witness :
    cellAt [("reserved15", [Cell.int 12, Cell.na])] "reserved15" 0 = some (Cell.int 12) ∧
    cellAt [("reserved15", [Cell.int 12, Cell.na])] "reserved15" 1 = some Cell.na :=
  C6_reserved_coercion [("reserved15", [Cell.txt "12.0", Cell.txt "abc"])]
    [("reserved15", [Cell.int 12, Cell.na])] (by decide) "reserved15" (by decide) 0 1
    (by decide) (by decide) rfl

/-! ## Claim C10 (confirmed): forced-text recast turns missing into `"nan"` -/

/-- C10: for a forced-text column present in the batch, the `astype(str)`
recast maps every cell through Python's `str`, so a missing value becomes the
literal text `"nan"`, and afterwards the column contains no missing values —
every cell is text.  Stated for batches with distinct column labels, as
produced by the file readers. -/
theorem C10_forced_text_nan (df df' : Batch) (hnd : (colNames df).Nodup)
    (col : String) (hcol : col ∈ string_columns) (hok : coerceStage df = .ok df')
    (vs : List Cell) (hvs : getCol df col = some vs) :
    getCol df' col = some (vs.map astypeStrCell) ∧
    (∀ i, vs.get? i = some Cell.na → (vs.map astypeStrCell).get? i = some (Cell.txt "nan")) ∧
    ∀ w ∈ vs.map astypeStrCell, ∃ t, w = Cell.txt t := by
  obtain ⟨d4, hd4, rfl⟩ := coerceStage_ok_iff.mp hok
  have hno := string_not_other hcol
  have hd1 : getCol (numericStep df) col = some vs := by
    unfold numericStep
    rw [getCol_applyGroup_not_mem _ _ _ hno.1, hvs]
  have hd3 : getCol (businessDayStep (dateTZStep (numericStep df))) col = some vs := by
    rw [getCol_businessDayStep_ne hno.2.2.1]
    unfold dateTZStep
    rw [getCol_applyGroup_not_mem _ _ _ hno.2.1, hd1]
  unfold int64Step at hd4
  have hd4col : getCol d4 col = some vs := by
    rw [foldlM_stepM_getCol_not_mem hno.2.2.2 hd4, hd3]
  refine ⟨?_, ?_, ?_⟩
  · unfold stringStep
    rw [getCol_applyGroup_mem astypeStrCell string_columns d4 (by decide) hcol, hd4col]
    rfl
  · intro i hi
    rw [List.get?_map, hi]
    rfl
  · intro w hw
    rcases List.mem_map.mp hw with ⟨v, _, rfl⟩
    exact ⟨renderCell v, rfl⟩

/-- C10, witness: a `card_number` column with a missing cell and a
leading-zero text cell. -/
theorem C10_forced_text_nan_witness :
    getCol [("card_number", [Cell.txt "nan", Cell.txt "0001234"])] "card_number" =
      some ([Cell.na, Cell.txt "0001234"].map astypeStrCell) ∧
    (∀ i, [Cell.na, Cell.txt "0001234"].get? i = some Cell.na →
      ([Cell.na, Cell.txt "0001234"].map astypeStrCell).get? i = some (Cell.txt "nan")) ∧
    ∀ w ∈ [Cell.na, Cell.txt "0001234"].map astypeStrCell, ∃ t, w = Cell.txt t :=
  C10_forced_text_nan [("card_number", [Cell.na, Cell.txt "0001234"])]
    [("card_number", [Cell.txt "nan", Cell.txt "0001234"])] (by decide) "card_number"
    (by decide) rfl [Cell.na, Cell.txt "0001234"] rfl

/-! ## Claim C8 (confirmed): the coercion stage is frame-preserving -/

/-- C8: the coercion stage only touches columns named in the four fixed
groups.  Every column whose canonical name belongs to no group passes through
with its values unchanged, and when no group column is present at all the
stage is the identity and reports no error (absent columns are silently
skipped). -/
theorem C8_coercion_frame (df df' : Batch) (hok : coerceStage df = .ok df') :
    (∀ name, name ∉ numeric_fields → name ∉ date_tz_fields → name ≠ "business_day" →
       name ∉ string_columns → getCol df' name = getCol df name) ∧
    ((∀ c ∈ numeric_fields, hasCol df c = false) →
     (∀ c ∈ date_tz_fields, hasCol df c = false) →
     hasCol df "business_day" = false →
     (∀ c ∈ string_columns, hasCol df c = false) → df' = df) := by
  obtain ⟨d4, hd4, rfl⟩ := coerceStage_ok_iff.mp hok
  constructor
  · intro name h1 h2 h3 h4
    have hres : name ∉ reserved_fields := fun hr => h1 (reserved_sub_numeric hr)
    have hd1 : getCol (numericStep df) name = getCol df name := by
      unfold numericStep
      exact getCol_applyGroup_not_mem _ _ _ h1
    have hd3 : getCol (businessDayStep (dateTZStep (numericStep df))) name =
        getCol df name := by
      rw [getCol_businessDayStep_ne h3]
      unfold dateTZStep
      rw [getCol_applyGroup_not_mem _ _ _ h2, hd1]
    unfold int64Step at hd4
    have hd4c : getCol d4 name = getCol df name := by
      rw [foldlM_stepM_getCol_not_mem hres hd4, hd3]
    unfold stringStep
    rw [getCol_applyGroup_not_mem _ _ _ h4, hd4c]
  · intro hn hd hb hs
    have e1 : numericStep df = df := applyGroup_all_absent _ _ _ hn
    have e2 : dateTZStep df = df := applyGroup_all_absent _ _ _ hd
    have e3 : businessDayStep df = df := by
      unfold businessDayStep
      rw [if_neg (by simp [hb])]
    rw [e1, e2, e3] at hd4
    have e4 : int64Step df = .ok df :=
      foldlM_stepM_all_absent fun c hc => hn c (reserved_sub_numeric hc)
    rw [e4] at hd4
    rw [← Except.ok.inj hd4]
    exact applyGroup_all_absent _ _ _ hs

/-- C8, witness on a one-column batch named outside every group. -/
theorem C8_coercion_frame_witness :
    getCol [("foo", [Cell.txt "x"])] "foo" = getCol [("foo", [Cell.txt "x"])] "foo" ∧
    ([("foo", [Cell.txt "x"])] : Batch) = [("foo", [Cell.txt "x"])] :=
  ⟨(C8_coercion_frame [("foo", [Cell.txt "x"])] [("foo", [Cell.txt "x"])] rfl).1
      "foo" (by decide) (by decide) (by decide) (by decide),
   (C8_coercion_frame [("foo", [Cell.txt "x"])] [("foo", [Cell.txt "x"])] rfl).2
      (by decide) (by decide) (by decide) (by decide)⟩

/-! ## Claim C2 (corrected): timezone stripping is global, not trailing-only -/

/-- C2, counterexample: the coercion removes a word-delimited token of 2–4
uppercase letters anywhere in the value, not only a trailing one.  For
`"AB 2024-01-15"` the spec's trailing-only rule strips nothing, leaving an
unparseable value (missing); the code removes the leading `"AB"` and parses
the date.  On a genuinely trailing token both agree. -/
theorem C2_nontrailing_token_stripped :
    parse_datetime_with_tz_cell (Cell.txt "AB 2024-01-15") = Cell.date ⟨2024, 1, 15⟩ ∧
    coerce_tz_spec "AB 2024-01-15" = none ∧
    coerce_tz_spec "2024-01-15 10:30:00 EST" = some ⟨2024, 1, 15⟩ :=
  ⟨rfl, rfl, rfl⟩

/-- C2, amended: coercion removes every word-delimited token of 2–4
uppercase letters anywhere in the value (the substituted value contains no
such token), parses the remainder as a calendar date with the time portion
validated and discarded, and yields missing on an unparseable remainder; the
group's columns are converted value by value. -/
theorem C2_tz_strip_anywhere :
    (∀ s : String, hasTZ false (resubTZ false s.data) = false) ∧
    (∀ df col, col ∈ date_tz_fields →
       getCol (dateTZStep df) col = (getCol df col).map (List.map parse_datetime_with_tz_cell)) ∧
    parse_datetime_with_tz_cell (Cell.txt "2024-01-15 10:30:00 EST") =
      Cell.date ⟨2024, 1, 15⟩ ∧
    parse_datetime_with_tz_cell (Cell.txt "abc") = Cell.na :=
  ⟨fun s => hasTZ_resubTZ s.data false,
   fun df col h => by
     unfold dateTZStep
     exact getCol_applyGroup_mem _ _ _ (by decide) h,
   rfl, rfl⟩

/-- C2, witness for the amended theorem at `submit_date_time`. -/
theorem C2_tz_strip_anywhere_witness :
    hasTZ false (resubTZ false ("2024-01-15 10:30:00 EST" : String).data) = false ∧
    getCol (dateTZStep [("submit_date_time", [Cell.txt "2024-01-15 10:30:00 EST"])])
        "submit_date_time" =
      (getCol [("submit_date_time", [Cell.txt "2024-01-15 10:30:00 EST"])]
          "submit_date_time").map (List.map parse_datetime_with_tz_cell) :=
  ⟨C2_tz_strip_anywhere.1 "2024-01-15 10:30:00 EST",
   C2_tz_strip_anywhere.2.1 _ "submit_date_time" (by decide)⟩

/-! ## Claim C1 (corrected): the stage can raise on the integer recast -/

/-- C1, counterexample: the stage is not exception-free.  A reserved column
holding `"12.5"` passes numeric coercion (as the float `12.5`) and then the
`Int64` recast raises, because pandas refuses to cast a non-integral value —
the cell is not degraded to missing.  The same raise happens for a whole
value beyond the int64 range, such as `10^19`. -/
theorem C1_int64_recast_raises :
    coerceStage [("reserved15", [Cell.txt "12.5"])] =
      Except.error "cannot safely cast non-equivalent float64 to int64" ∧
    coerceStage [("reserved15", [Cell.txt "10000000000000000000"])] =
      Except.error "cannot safely cast non-equivalent float64 to int64" :=
  ⟨rfl, rfl⟩

/-- C1, amended: for a batch of raw cells (text or missing) with distinct
column labels whose reserved-column values only parse to whole numbers
inside the signed 64-bit integer range, the coercion stage raises no
exception, preserves every column's row count (no row is dropped), and
degrades every numeric or date parse failure to a missing value in place.
(Without the whole-and-in-range proviso the `Int64` recast raises — on a
fractional value as the counterexample shows, and likewise on a whole value
beyond `2^63 - 1`; duplicate labels also make the pandas loops raise and
are excluded with the label condition.) -/
theorem C1_stage_safety (df : Batch) (hnd : (colNames df).Nodup)
    (hraw : ∀ p ∈ df, ∀ v ∈ p.2, v = Cell.na ∨ ∃ s, v = Cell.txt s)
    (hsafe : ∀ col ∈ reserved_fields, ∀ vs, getCol df col = some vs →
       ∀ s q, Cell.txt s ∈ vs → parseNumeric s = some q →
         q.den = 1 ∧ -9223372036854775808 ≤ q.num ∧ q.num ≤ 9223372036854775807) :
    ∃ df', coerceStage df = .ok df' ∧ shape df' = shape df ∧
      (∀ col ∈ numeric_fields, ∀ i s, cellAt df col i = some (Cell.txt s) →
         parseNumeric s = none → cellAt df' col i = some Cell.na) ∧
      (∀ col, col ∈ date_tz_fields ∨ col = "business_day" → ∀ i s,
         cellAt df col i = some (Cell.txt s) →
         parseDT (stripL (resubTZ false s.data)) = none →
         cellAt df' col i = some Cell.na) := by
  have hmem_raw : ∀ {c : String} {vs : List Cell}, getCol df c = some vs →
      ∀ v ∈ vs, v = Cell.na ∨ ∃ s, v = Cell.txt s := by
    intro c vs hvs v hv
    unfold getCol at hvs
    cases hf : df.find? (fun p => p.1 = c) with
    | none => rw [hf] at hvs; cases hvs
    | some p =>
      rw [hf] at hvs
      simp only [Option.map_some', Option.some_inj] at hvs
      exact hraw p (List.mem_of_find?_eq_some hf) v (hvs ▸ hv)
  have hd3res : ∀ col ∈ reserved_fields,
      getCol (businessDayStep (dateTZStep (numericStep df))) col =
        (getCol df col).map (List.map toNumericCell) := by
    intro col hcol
    have hnum := reserved_sub_numeric hcol
    have hno := numeric_not_other hnum
    rw [getCol_businessDayStep_ne hno.2.1]
    unfold dateTZStep
    rw [getCol_applyGroup_not_mem _ _ _ hno.1]
    unfold numericStep
    exact getCol_applyGroup_mem _ _ _ (by decide) hnum
  have hok4 : ∃ d4, int64Step (businessDayStep (dateTZStep (numericStep df))) = .ok d4 := by
    apply foldlM_stepM_ok_of_all (by decide)
    intro c hc vs₃ hvs₃ v hv
    rw [hd3res c hc] at hvs₃
    cases hg : getCol df c with
    | none => rw [hg] at hvs₃; cases hvs₃
    | some vs =>
      rw [hg] at hvs₃
      simp only [Option.map_some', Option.some_inj] at hvs₃
      subst hvs₃
      rcases List.mem_map.mp hv with ⟨u, hu, rfl⟩
      rcases hmem_raw hg u hu with rfl | ⟨s, rfl⟩
      · exact ⟨Cell.na, rfl⟩
      · show ∃ w, int64Cell (toNumericCell (Cell.txt s)) = .ok w
        cases hp : parseNumeric s with
        | none =>
          refine ⟨Cell.na, ?_⟩
          simp [int64Cell, toNumericCell, hp, astypeInt64Cell]
        | some q =>
          have hden := hsafe c hc vs hg s q hu hp
          refine ⟨Cell.int q.num, ?_⟩
          simp [int64Cell, toNumericCell, hp, astypeInt64Cell, hden]
  obtain ⟨d4, hd4⟩ := hok4
  have hd4' := hd4
  unfold int64Step at hd4'
  refine ⟨stringStep d4, ?_, ?_, ?_, ?_⟩
  · unfold coerceStage
    rw [hd4, exc_bind_ok]
    rfl
  · have s1 : shape (numericStep df) = shape df := shape_applyGroup _ _ _
    have s2 : shape (dateTZStep (numericStep df)) = shape (numericStep df) :=
      shape_applyGroup _ _ _
    have s3 : shape (businessDayStep (dateTZStep (numericStep df))) =
        shape (dateTZStep (numericStep df)) := shape_businessDayStep _
    have hnd3 : (colNames (businessDayStep (dateTZStep (numericStep df)))).Nodup := by
      rw [colNames_eq_shape_map, s3, s2, s1, ← colNames_eq_shape_map]
      exact hnd
    have s4 : shape d4 = shape (businessDayStep (dateTZStep (numericStep df))) :=
      foldlM_stepM_shape hnd3 hd4'
    have s5 : shape (stringStep d4) = shape d4 := shape_applyGroup _ _ _
    rw [s5, s4, s3, s2, s1]
  · intro col hcol i s hcell hfail
    have hno := numeric_not_other hcol
    unfold cellAt at hcell ⊢
    cases hg : getCol df col with
    | none => rw [hg] at hcell; simp at hcell
    | some vs =>
      rw [hg] at hcell
      simp only [Option.some_bind] at hcell
      have hval3 : getCol (businessDayStep (dateTZStep (numericStep df))) col =
          some (vs.map toNumericCell) := by
        rw [getCol_businessDayStep_ne hno.2.1]
        unfold dateTZStep
        rw [getCol_applyGroup_not_mem _ _ _ hno.1]
        unfold numericStep
        rw [getCol_applyGroup_mem _ _ _ (by decide) hcol, hg]
        rfl
      have hcell3 : (vs.map toNumericCell).get? i = some Cell.na := by
        rw [List.get?_map, hcell]
        simp [toNumericCell, hfail]
      by_cases hres : col ∈ reserved_fields
      · rcases foldlM_stepM_getCol_mem (by decide) hres hd4' with
          ⟨hnone, _⟩ | ⟨vs₃, ws, hvs₃, hws, hd4col⟩
        · rw [hval3] at hnone
          cases hnone
        · rw [hval3] at hvs₃
          have hv3 := Option.some.inj hvs₃
          subst hv3
          obtain ⟨w, hw, hwsi⟩ := mapCellsM_get? _ hws i _ hcell3
          have hw' : Except.ok Cell.na = Except.ok w :=
            (show int64Cell Cell.na = Except.ok Cell.na from rfl) ▸ hw
          unfold stringStep
          rw [getCol_applyGroup_not_mem _ _ _ hno.2.2, hd4col]
          simp only [Option.some_bind]
          rw [hwsi, ← Except.ok.inj hw']
      · have hkeep : getCol d4 col = some (vs.map toNumericCell) := by
          rw [foldlM_stepM_getCol_not_mem hres hd4', hval3]
        unfold stringStep
        rw [getCol_applyGroup_not_mem _ _ _ hno.2.2, hkeep]
        simp only [Option.some_bind]
        exact hcell3
  · intro col hcolor i s hcell hfail
    unfold cellAt at hcell ⊢
    rcases hcolor with hdt | rfl
    · have hno := date_tz_not_other hdt
      cases hg : getCol df col with
      | none => rw [hg] at hcell; simp at hcell
      | some vs =>
        rw [hg] at hcell
        simp only [Option.some_bind] at hcell
        have hval3 : getCol (businessDayStep (dateTZStep (numericStep df))) col =
            some (vs.map parse_datetime_with_tz_cell) := by
          rw [getCol_businessDayStep_ne hno.2.1]
          unfold dateTZStep
          rw [getCol_applyGroup_mem _ _ _ (by decide) hdt]
          unfold numericStep
          rw [getCol_applyGroup_not_mem _ _ _ hno.1, hg]
          rfl
        have hkeep : getCol d4 col = some (vs.map parse_datetime_with_tz_cell) := by
          rw [foldlM_stepM_getCol_not_mem hno.2.2.1 hd4', hval3]
        unfold stringStep
        rw [getCol_applyGroup_not_mem _ _ _ hno.2.2.2, hkeep]
        simp only [Option.some_bind]
        rw [List.get?_map, hcell]
        simp [parse_datetime_with_tz_cell, renderCell, hfail]
    · have h1 : ("business_day" : String) ∉ numeric_fields := by decide
      have h2 : ("business_day" : String) ∉ date_tz_fields := by decide
      have h4 : ("business_day" : String) ∉ reserved_fields := by decide
      have h5 : ("business_day" : String) ∉ string_columns := by decide
      cases hg : getCol df "business_day" with
      | none => rw [hg] at hcell; simp at hcell
      | some vs =>
        rw [hg] at hcell
        simp only [Option.some_bind] at hcell
        have hval3 : getCol (businessDayStep (dateTZStep (numericStep df))) "business_day" =
            some (vs.map parse_date_cell) := by
          rw [getCol_businessDayStep_self]
          unfold dateTZStep
          rw [getCol_applyGroup_not_mem _ _ _ h2]
          unfold numericStep
          rw [getCol_applyGroup_not_mem _ _ _ h1, hg]
          rfl
        have hkeep : getCol d4 "business_day" = some (vs.map parse_date_cell) := by
          rw [foldlM_stepM_getCol_not_mem h4 hd4', hval3]
        unfold stringStep
        rw [getCol_applyGroup_not_mem _ _ _ h5, hkeep]
        simp only [Option.some_bind]
        rw [List.get?_map, hcell]
        simp [parse_date_cell, renderCell, hfail]

/-- C1, witness for the amended theorem on a small two-column raw batch. -/
theorem C1_stage_safety_witness :
    ∃ df', coerceStage [("reserved15", [Cell.txt "12.0"]),
        ("settlement_amount", [Cell.txt "N/A"])] = .ok df' ∧
      shape df' = shape [("reserved15", [Cell.txt "12.0"]),
        ("settlement_amount", [Cell.txt "N/A"])] ∧
      (∀ col ∈ numeric_fields, ∀ i s,
         cellAt [("reserved15", [Cell.txt "12.0"]), ("settlement_amount", [Cell.txt "N/A"])]
             col i = some (Cell.txt s) →
         parseNumeric s = none → cellAt df' col i = some Cell.na) ∧
      (∀ col, col ∈ date_tz_fields ∨ col = "business_day" → ∀ i s,
         cellAt [("reserved15", [Cell.txt "12.0"]), ("settlement_amount", [Cell.txt "N/A"])]
             col i = some (Cell.txt s) →
         parseDT (stripL (resubTZ false s.data)) = none →
         cellAt df' col i = some Cell.na) := by
  apply C1_stage_safety
  · decide
  · intro p hp v hv
    rcases List.mem_cons.mp hp with rfl | hp2
    · simp only [List.mem_singleton] at hv
      subst hv
      exact Or.inr ⟨_, rfl⟩
    · rcases List.mem_cons.mp hp2 with rfl | hp3
      · simp only [List.mem_singleton] at hv
        subst hv
        exact Or.inr ⟨_, rfl⟩
      · cases hp3
  · intro col hcol vs hvs s q hsv hq
    fin_cases hcol
    · rw [show getCol [("reserved15", [Cell.txt "12.0"]),
          ("settlement_amount", [Cell.txt "N/A"])] "reserved15" =
            some [Cell.txt "12.0"] from rfl] at hvs
      rw [← Option.some.inj hvs] at hsv
      simp only [List.mem_singleton] at hsv
      injection hsv with hsv
      subst hsv
      rw [show parseNumeric "12.0" = some (mkRat 120 10) from rfl] at hq
      rw [← Option.some.inj hq]
      decide
    · exact Option.noConfusion ((show (none : Option (List Cell)) =
        getCol [("reserved15", [Cell.txt "12.0"]), ("settlement_amount", [Cell.txt "N/A"])]
          "reserved16" from rfl).trans hvs)
    · exact Option.noConfusion ((show (none : Option (List Cell)) =
        getCol [("reserved15", [Cell.txt "12.0"]), ("settlement_amount", [Cell.txt "N/A"])]
          "reserved17" from rfl).trans hvs)
    · exact Option.noConfusion ((show (none : Option (List Cell)) =
        getCol [("reserved15", [Cell.txt "12.0"]), ("settlement_amount", [Cell.txt "N/A"])]
          "reserved18" from rfl).trans hvs)
    · exact Option.noConfusion ((show (none : Option (List Cell)) =
        getCol [("reserved15", [Cell.txt "12.0"]), ("settlement_amount", [Cell.txt "N/A"])]
          "reserved19" from rfl).trans hvs)
    · exact Option.noConfusion ((show (none : Option (List Cell)) =
        getCol [("reserved15", [Cell.txt "12.0"]), ("settlement_amount", [Cell.txt "N/A"])]
          "reserved20" from rfl).trans hvs)

/-- C7, witness for the amended theorem. -/
theorem C7_stamp_adds_single_uniform_timestamp_witness :
    stampStep [("a", [Cell.txt "1"])] (Cell.dt 5) =
      [("a", [Cell.txt "1"])] ++
        [("load_time", List.replicate (nrows [("a", [Cell.txt "1"])]) (Cell.dt 5))] ∧
    (stampStep [("a", [Cell.txt "1"])] (Cell.dt 5)).length =
      ([("a", [Cell.txt "1"])] : Batch).length + 1 ∧
    (stampStep [("a", [Cell.txt "1"])] (Cell.dt 5)).getLast? =
      some ("load_time", List.replicate (nrows [("a", [Cell.txt "1"])]) (Cell.dt 5)) ∧
    (List.replicate (nrows [("a", [Cell.txt "1"])]) (Cell.dt 5)).length =
      nrows [("a", [Cell.txt "1"])] ∧
    ∀ v ∈ List.replicate (nrows [("a", [Cell.txt "1"])]) (Cell.dt 5), v = Cell.dt 5 :=
  C7_stamp_adds_single_uniform_timestamp [("a", [Cell.txt "1"])] (Cell.dt 5) (by decide)
